import Mathlib

/-!
# Verification of the CryEngine job-scheduler core

The repository ships the unit tests of its job system
(`Code/CryEngine/UnitTests/CrySystemUnitTest/JobTests.cpp`); the scheduler
implementation itself (CompletionSignal / SJobState, ArgumentSnapshot,
JobHandle, PriorityDispatchQueue, WorkerPool/Scheduler) lives outside the
shown sources.  Following the specification, this file builds an executable
operational model of that core — jobs as data, worker execution as a
small-step machine over explicit schedules — and proves the specified
lifetime, ordering and counting contracts against it.  Test scenarios from
`JobTests.cpp` are replayed as concrete configurations of the machine.
-/

namespace JobSys

/-- Modelled from the spec: priority tiers form a small closed enumeration
(§6: "e.g. stream/high-throughput tier, regular tier"); the tests use
`eStreamPriority` and `eRegularPriority`. -/
inductive Priority where
  | eHighPriority
  | eRegularPriority
  | eLowPriority
  | eStreamPriority
deriving DecidableEq, Repr

/-- Modelled from the spec: the numeric rank of a tier; strictly higher
ranks are dequeued first (§4.4). -/
def Priority.rank : Priority → Nat
  | .eHighPriority => 3
  | .eRegularPriority => 2
  | .eLowPriority => 1
  | .eStreamPriority => 0

/-- Argument values that can be captured into an ArgumentSnapshot: the test
jobs bind `int` arguments, `string` arguments, or no argument (plain
closures). -/
inductive Val where
  | intV (n : Int)
  | strV (s : String)
  | unitV
deriving DecidableEq, Repr

/-- The shared mutable state the test entry points touch: the preallocated
slot array of `MemberFunctionJobMultiple`, the shared atomic counter of
`LambdaJobOld`, the receiver hosts' `m_value` fields, the local `v` of
`LambdaJobNew`, and the global string of `FreeFunctionJobLifeTime`. -/
structure Shared where
  slots   : List Int
  counter : Nat
  hosts   : Nat → Int
  var     : Int
  gstr    : String

/-- Entry points appearing in the test suite, as syntactic tags so that
jobs have decidable equality; `applyEntry` interprets them. -/
inductive Entry where
  | memberSet        -- CTestJobHost::JobEntry: receiver's m_value := arg
  | slotWrite        -- writes arg into slot index arg of the shared array
  | incCounter       -- LambdaJobOld's closure: ++v on the shared counter
  | setVar (n : Int) -- LambdaJobNew's closure: v := n
  | storeGStr        -- SFreeFunctionLifeTimeTestCallback: global string := arg
  | nop
deriving DecidableEq, Repr

/-- Write `v` at index `i` of a list, out-of-range writes are dropped
(the tests only write in range). -/
def setSlot : List Int → Nat → Int → List Int
  | [], _, _ => []
  | _ :: xs, 0, v => v :: xs
  | x :: xs, i + 1, v => x :: setSlot xs i v

/-- Read index `i` of a list, defaulting to 0. -/
def getSlot : List Int → Nat → Int
  | [], _ => 0
  | x :: _, 0 => x
  | _ :: xs, i + 1 => getSlot xs i

/-- Interpretation of an entry point: the user code run by `run_now`,
given the snapshot's stored argument and the bound receiver. -/
def applyEntry : Entry → Val → Option Nat → Shared → Shared
  | .memberSet, .intV n, some r, sh => { sh with hosts := Function.update sh.hosts r n }
  | .memberSet, _, _, sh => sh
  | .slotWrite, .intV n, _, sh => { sh with slots := setSlot sh.slots n.toNat n }
  | .slotWrite, _, _, sh => sh
  | .incCounter, _, _, sh => { sh with counter := sh.counter + 1 }
  | .setVar n, _, _, sh => { sh with var := n }
  | .storeGStr, .strV s, _, sh => { sh with gstr := s }
  | .storeGStr, _, _, sh => sh
  | .nop, _, _, sh => sh

/-- Modelled from the spec: a job made visible to the scheduler — an id,
a priority tier, an optional attached CompletionSignal (by id), the
ArgumentSnapshot's owned copy of the bound argument, the weak receiver
reference, and the entry point (§3 JobHandle). -/
structure Job where
  id       : Nat
  prio     : Priority
  sigId    : Option Nat
  arg      : Val
  receiver : Option Nat
  entry    : Entry
deriving DecidableEq, Repr

/-- Observable events of a run: signal registration, queue push, entry-point
invocation (with the argument value the entry point observed), snapshot
destruction, and completion signalling. -/
inductive Event where
  | evRegister (sig : Nat)
  | evPush (jid : Nat)
  | evBody (jid : Nat) (arg : Val)
  | evDestroy (jid : Nat)
  | evComplete (jid : Nat)
deriving DecidableEq, Repr

/-- Phase of a job held by a worker inside `run_now`: just popped (user code
not yet run), user code finished, snapshot destroyed. -/
inductive Phase where
  | popped
  | bodyDone
  | destroyed
deriving DecidableEq, Repr

/-- A job in flight on a worker, together with its `run_now` phase. -/
structure InFlight where
  job   : Job
  phase : Phase
deriving DecidableEq, Repr

/-- Modelled from the spec: the whole scheduler state — the
PriorityDispatchQueue in arrival order, the fixed worker pool (`wcount`
workers, each idle or holding an in-flight job), every CompletionSignal's
pending count, the shared memory the entry points mutate, and the event
trace. -/
structure SysState where
  queue   : List Job
  wcount  : Nat
  workers : Nat → Option InFlight
  signals : Nat → Int
  shared  : Shared
  trace   : List Event

/-- Modelled from the spec: `CompletionSignal.register()` — atomically
increments the pending count of the attached signal, if any (§4.1). -/
def register (osig : Option Nat) (f : Nat → Int) : Nat → Int :=
  fun s => if osig = some s then f s + 1 else f s

/-- Modelled from the spec: `CompletionSignal.complete()` — atomically
decrements the pending count of the attached signal, if any (§4.1). -/
def decSig (osig : Option Nat) (f : Nat → Int) : Nat → Int :=
  fun s => if osig = some s then f s - 1 else f s

/-- Modelled from the spec: whether `CompletionSignal.wait()` blocks —
it blocks exactly while the pending count is nonzero (§4.1). -/
def waitBlocks (st : SysState) (s : Nat) : Bool :=
  decide (st.signals s ≠ 0)

/-- Modelled from the spec: a spinning `wait()` interleaved with worker
steps of a schedule; returns the number of spin iterations performed before
the pending count was observed to be zero. -/
def waitSpin (s : Nat) (step : SysState → Nat → SysState) : SysState → List Nat → Nat
  | _, [] => 0
  | st, w :: σ => if st.signals s = 0 then 0 else 1 + waitSpin s step (step st w) σ

/-- Modelled from the spec: PriorityDispatchQueue pop — dequeues the
earliest job of the strictly highest priority tier present (§4.4: ordered
first by tier, first-in-first-out within a tier). -/
def popBest : List Job → Option (Job × List Job)
  | [] => none
  | j :: rest =>
    match popBest rest with
    | none => some (j, rest)
    | some (k, rest') =>
      if j.prio.rank < k.prio.rank then some (k, j :: rest') else some (j, rest)

/-- Modelled from the spec: one micro-step of worker `w` (§4.5): an idle
worker pops the best job; a worker holding a job advances `run_now` —
run the user entry point, then destroy the snapshot, then signal
completion, in that fixed order (§4.3). -/
def stepWorker (st : SysState) (w : Nat) : SysState :=
  if w < st.wcount then
    match st.workers w with
    | none =>
      match popBest st.queue with
      | none => st
      | some (j, q') =>
        { st with queue := q',
                  workers := Function.update st.workers w (some ⟨j, .popped⟩) }
    | some ⟨j, .popped⟩ =>
        { st with shared := applyEntry j.entry j.arg j.receiver st.shared,
                  trace := st.trace ++ [.evBody j.id j.arg],
                  workers := Function.update st.workers w (some ⟨j, .bodyDone⟩) }
    | some ⟨j, .bodyDone⟩ =>
        { st with trace := st.trace ++ [.evDestroy j.id],
                  workers := Function.update st.workers w (some ⟨j, .destroyed⟩) }
    | some ⟨j, .destroyed⟩ =>
        { st with signals := decSig j.sigId st.signals,
                  trace := st.trace ++ [.evComplete j.id],
                  workers := Function.update st.workers w none }
  else st

/-- Run the worker pool along a schedule (an arbitrary interleaving of
worker indices). -/
def run (st : SysState) (σ : List Nat) : SysState :=
  σ.foldl stepWorker st

/-- The trace events a submission emits for the attached signal. -/
def regEvents : Option Nat → List Event
  | some s => [.evRegister s]
  | none => []

/-- Modelled from the spec: `Scheduler.submit` — performs `register()` on
the job's CompletionSignal and then pushes the job onto the
PriorityDispatchQueue, in that order (§4.5). -/
def submitJob (j : Job) (st : SysState) : SysState :=
  { st with signals := register j.sigId st.signals,
            queue := st.queue ++ [j],
            trace := st.trace ++ (regEvents j.sigId ++ [.evPush j.id]) }

/-- A client/worker configuration: the machine state plus the jobs the
client thread has built but not yet submitted (it submits them in order). -/
structure Config where
  st      : SysState
  pending : List Job

/-- An action of the whole system: a worker micro-step, or the client
thread submitting its next pending job. -/
inductive Act where
  | work (w : Nat)
  | dispatch
deriving DecidableEq, Repr

/-- Perform one action. -/
def doAct (cfg : Config) (a : Act) : Config :=
  match a with
  | .work w => { cfg with st := stepWorker cfg.st w }
  | .dispatch =>
    match cfg.pending with
    | [] => cfg
    | j :: rest => { st := submitJob j cfg.st, pending := rest }

/-- Run the full system along a schedule of actions (arbitrary interleaving
of client submissions and worker steps). -/
def runAct (cfg : Config) (σ : List Act) : Config :=
  σ.foldl doAct cfg

/-- Modelled from the spec: a not-yet-submitted JobHandle — the owned
ArgumentSnapshot (none once moved-from), priority, optional
CompletionSignal attachment, weak receiver reference and entry point
(§3 JobHandle). -/
structure JobHandle where
  snapshot : Option Val
  prio     : Priority
  sig      : Option Nat
  receiver : Option Nat
  entry    : Entry
deriving DecidableEq, Repr

/-- Modelled from the spec: constructing a handle from a by-value argument
deep-copies the argument into the snapshot (§4.2). -/
def mkHandle (e : Entry) (v : Val) : JobHandle :=
  { snapshot := some v, prio := .eStreamPriority, sig := none,
    receiver := none, entry := e }

/-- Modelled from the spec: `SetClassInstance` / `bind_receiver` — binds the
non-owned receiver (§4.3). -/
def bindReceiver (h : JobHandle) (r : Nat) : JobHandle :=
  { h with receiver := some r }

/-- Modelled from the spec: `SetPriorityLevel`. -/
def setPriority (h : JobHandle) (p : Priority) : JobHandle :=
  { h with prio := p }

/-- Modelled from the spec: `RegisterJobState` — attaches a
CompletionSignal. -/
def registerSignal (h : JobHandle) (s : Nat) : JobHandle :=
  { h with sig := some s }

/-- Modelled from the spec: moving a not-yet-submitted JobHandle transfers
ArgumentSnapshot ownership, priority, CompletionSignal attachment and the
receiver binding to the destination, and leaves the source empty
(§3 JobHandle).  Returns (destination, source-after-move). -/
def moveHandle (h : JobHandle) : JobHandle × JobHandle :=
  (h, { h with snapshot := none })

/-- Modelled from the spec: only a handle still owning its snapshot is
submittable; a moved-from handle is not (§3 JobHandle). -/
def submittable (h : JobHandle) : Bool :=
  h.snapshot.isSome

/-- Submitting a handle: refuses an empty (moved-from) handle, otherwise
builds the job from the handle's owned state and submits it. -/
def submitHandle (h : JobHandle) (jid : Nat) (st : SysState) : Option SysState :=
  match h.snapshot with
  | none => none
  | some v =>
    some (submitJob { id := jid, prio := h.prio, sigId := h.sig, arg := v,
                      receiver := h.receiver, entry := h.entry } st)

/-- Modelled from the spec: constructing a handle from caller-owned
memory (`mem` at address `addr`): the value is copied out of the caller's
storage at creation time; the handle retains no pointer into `mem` (§4.2). -/
def mkHandleAt (e : Entry) (mem : Nat → Option Val) (addr : Nat) : Option JobHandle :=
  (mem addr).map (mkHandle e)

/-- Destroying the caller's storage at `addr` (end of scope of the
original argument). -/
def destroyAt (mem : Nat → Option Val) (addr : Nat) : Nat → Option Val :=
  fun a => if a = addr then none else mem a

/-- The all-zero signal bank. -/
def zeroSig : Nat → Int := fun _ => 0

/-- Select the job (if any) out of a worker slot. -/
def jobOf : InFlight → Option Job := fun f => some f.job

/-- Select the job of a worker slot that has not yet run its body. -/
def preOf : InFlight → Option Job :=
  fun f => match f.phase with
  | .popped => some f.job
  | _ => none

/-- Collect, over the worker pool, the jobs selected by `g`. -/
def wmap (st : SysState) (g : InFlight → Option Job) : List Job :=
  (List.range st.wcount).filterMap (fun u => (st.workers u).bind g)

/-- All jobs currently held by workers. -/
def workerJobs (st : SysState) : List Job := wmap st jobOf

/-- All jobs the scheduler still owns: queued or held by a worker. -/
def liveJobs (st : SysState) : List Job := st.queue ++ workerJobs st

/-- Whether a job is attached to signal `s`. -/
def attachedTo (s : Nat) (j : Job) : Bool := decide (j.sigId = some s)

/-- The pending-count ledger invariant: every signal's count equals the
number of live (registered, not yet completed) jobs attached to it. -/
def SigInv (st : SysState) : Prop :=
  ∀ s, st.signals s = ((liveJobs st).countP (attachedTo s) : Int)

/-- Initial shared memory: empty slot array, counter 0, all hosts 0,
`v = 0`, empty global string. -/
def initShared : Shared :=
  { slots := [], counter := 0, hosts := fun _ => 0, var := 0, gstr := "" }

/-- Initial machine state for a pool of `w` workers over shared memory
`sh`: empty queue, all workers idle, all signals at zero, empty trace. -/
def initStateWith (w : Nat) (sh : Shared) : SysState :=
  { queue := [], wcount := w, workers := fun _ => none,
    signals := zeroSig, shared := sh, trace := [] }

/-! ## List and worker-pool bookkeeping lemmas -/

theorem filterMap_congr_mem {α β : Type} {f g : α → Option β} :
    ∀ {l : List α}, (∀ a ∈ l, f a = g a) → l.filterMap f = l.filterMap g := by
  intro l
  induction l with
  | nil => intro _; rfl
  | cons x xs ih =>
    intro h
    simp only [List.filterMap_cons, h x (List.mem_cons_self x xs),
      ih (fun a ha => h a (List.mem_cons_of_mem x ha))]

theorem filterMap_singleton_toList {α β : Type} (f : α → Option β) (a : α) :
    List.filterMap f [a] = (f a).toList := by
  cases h : f a <;> simp [List.filterMap_cons, h, Option.toList]

theorem filterMap_const_none {α β : Type} (l : List α) :
    l.filterMap (fun _ => (none : Option β)) = [] := by
  induction l with
  | nil => rfl
  | cons x xs ih => simp [List.filterMap_cons, ih]

theorem filterMap_range_update_perm {α : Type} (F : Nat → Option α) :
    ∀ {n : Nat} (w : Nat), w < n → ∀ (v : Option α),
    List.Perm
      (((List.range n).filterMap (Function.update F w v)) ++ (F w).toList)
      (((List.range n).filterMap F) ++ v.toList) := by
  intro n
  induction n with
  | zero => intro w hw; omega
  | succ n ih =>
    intro w hw v
    rw [List.range_succ, List.filterMap_append, List.filterMap_append,
      filterMap_singleton_toList, filterMap_singleton_toList]
    by_cases hwn : w = n
    · subst hwn
      have hcongr : (List.range w).filterMap (Function.update F w v) =
          (List.range w).filterMap F := by
        refine filterMap_congr_mem (fun a ha => ?_)
        have : a ≠ w := by
          have := List.mem_range.mp ha; omega
        simp [Function.update_noteq this]
      rw [hcongr, Function.update_same]
      rw [List.append_assoc, List.append_assoc]
      exact List.Perm.append_left _ List.perm_append_comm
    · have hwn' : w < n := by omega
      have hFn : Function.update F w v n = F n := by
        have : n ≠ w := fun h => hwn h.symm
        simp [Function.update_noteq this]
      rw [hFn]
      have ihx := ih w hwn' v
      rw [List.append_assoc, List.append_assoc]
      refine ((List.Perm.append_left _ List.perm_append_comm).trans ?_).trans
        (List.Perm.append_left _ List.perm_append_comm)
      rw [← List.append_assoc, ← List.append_assoc]
      exact ihx.append_right _

theorem bind_update (ws : Nat → Option InFlight) (w : Nat) (v : Option InFlight)
    (g : InFlight → Option Job) :
    (fun u => ((Function.update ws w v) u).bind g) =
      Function.update (fun u => (ws u).bind g) w (v.bind g) := by
  funext u
  by_cases h : u = w
  · subst h; simp [Function.update_same]
  · simp [Function.update_noteq h]

/-- Effect of updating one worker slot on any worker-pool job collection,
as a permutation with the old and new slot contents made explicit. -/
theorem wmap_update_perm {st : SysState} (st' : SysState) {w : Nat} (hw : w < st.wcount)
    (v : Option InFlight) (g : InFlight → Option Job)
    (hq : st'.wcount = st.wcount)
    (hwrk : st'.workers = Function.update st.workers w v) :
    List.Perm (wmap st' g ++ ((st.workers w).bind g).toList)
      (wmap st g ++ (v.bind g).toList) := by
  unfold wmap
  rw [hq, hwrk, bind_update]
  exact filterMap_range_update_perm (fun u => (st.workers u).bind g) w hw (v.bind g)

theorem wmap_update_countP {st st' : SysState} {w : Nat} (hw : w < st.wcount)
    (v : Option InFlight) (g : InFlight → Option Job)
    (hq : st'.wcount = st.wcount)
    (hwrk : st'.workers = Function.update st.workers w v) (p : Job → Bool) :
    (wmap st' g).countP p + ((st.workers w).bind g).toList.countP p =
      (wmap st g).countP p + (v.bind g).toList.countP p := by
  have h := (wmap_update_perm st' hw v g hq hwrk).countP_eq p
  simpa [List.countP_append] using h

/-- A job held by a worker is collected by `wmap` whenever the selector
keeps it. -/
theorem mem_wmap_of_worker {st : SysState} {w : Nat} {fl : InFlight}
    (hw : w < st.wcount) (hfl : st.workers w = some fl)
    {g : InFlight → Option Job} {j : Job} (hg : g fl = some j) :
    j ∈ wmap st g := by
  unfold wmap
  exact List.mem_filterMap.mpr ⟨w, List.mem_range.mpr hw, by rw [hfl]; simpa⟩

/-! ## PriorityDispatchQueue lemmas -/

theorem popBest_eq_none {q : List Job} : popBest q = none ↔ q = [] := by
  cases q with
  | nil => simp [popBest]
  | cons j rest =>
    simp only [popBest]
    cases h : popBest rest with
    | none => simp
    | some kq => simp only [h]; split <;> simp

/-- `popBest` dequeues the earliest job of the maximal priority rank:
the queue decomposes around the popped job, every job ahead of it has a
strictly lower rank, and no queued job has a higher rank. -/
theorem popBest_spec :
    ∀ {q : List Job} {j : Job} {q' : List Job}, popBest q = some (j, q') →
      ∃ pre post, q = pre ++ j :: post ∧ q' = pre ++ post ∧
        (∀ k ∈ pre, k.prio.rank < j.prio.rank) ∧
        (∀ k ∈ q, k.prio.rank ≤ j.prio.rank) := by
  intro q
  induction q with
  | nil => intro j q' h; simp [popBest] at h
  | cons a rest ih =>
    intro j q' h
    rw [show popBest (a :: rest) =
        (match popBest rest with
         | none => some (a, rest)
         | some (k, rest') =>
           if a.prio.rank < k.prio.rank then some (k, a :: rest')
           else some (a, rest)) from rfl] at h
    cases hrest : popBest rest with
    | none =>
      rw [hrest] at h
      have hnil : rest = [] := popBest_eq_none.mp hrest
      have h' : some (a, rest) = some (j, q') := h
      injection h' with hp
      injection hp with h1 h2
      subst h1; subst h2
      exact ⟨[], rest, by simp, by simp, by simp, by
        intro x hx
        rcases List.mem_cons.mp hx with rfl | hx
        · exact Nat.le_refl _
        · rw [hnil] at hx; simp at hx⟩
    | some kq =>
      obtain ⟨k, rest'⟩ := kq
      rw [hrest] at h
      obtain ⟨pre₁, post₁, hdec, hrest', hpre₁, hall₁⟩ := ih hrest
      have h' : (if a.prio.rank < k.prio.rank then some (k, a :: rest')
          else some (a, rest)) = some (j, q') := h
      by_cases hlt : a.prio.rank < k.prio.rank
      · rw [if_pos hlt] at h'
        injection h' with hp
        injection hp with h1 h2
        subst h1; subst h2
        refine ⟨a :: pre₁, post₁, by simp [hdec], by simp [hrest'], ?_, ?_⟩
        · intro x hx
          rcases List.mem_cons.mp hx with rfl | hx
          · exact hlt
          · exact hpre₁ x hx
        · intro x hx
          rcases List.mem_cons.mp hx with rfl | hx
          · exact Nat.le_of_lt hlt
          · exact hall₁ x hx
      · rw [if_neg hlt] at h'
        injection h' with hp
        injection hp with h1 h2
        subst h1; subst h2
        refine ⟨[], rest, by simp, by simp, by simp, ?_⟩
        intro x hx
        rcases List.mem_cons.mp hx with rfl | hx
        · exact Nat.le_refl _
        · have hk := hall₁ x hx
          omega

theorem popBest_perm {q : List Job} {j : Job} {q' : List Job}
    (h : popBest q = some (j, q')) : List.Perm q (j :: q') := by
  obtain ⟨pre, post, h1, h2, -, -⟩ := popBest_spec h
  rw [h1, h2]
  exact List.perm_middle

/-! ## Worker step case analysis -/

/-- Every worker micro-step is a no-op, a pop, a body run, a snapshot
destruction, or a completion, with the state change made explicit. -/
theorem step_cases (st : SysState) (w : Nat) :
    stepWorker st w = st ∨
    (∃ j q', w < st.wcount ∧ st.workers w = none ∧
      popBest st.queue = some (j, q') ∧
      stepWorker st w = { st with
                          queue := q',
                          workers := Function.update st.workers w
                            (some ⟨j, .popped⟩) }) ∨
    (∃ j, w < st.wcount ∧ st.workers w = some ⟨j, .popped⟩ ∧
      stepWorker st w = { st with
                          shared := applyEntry j.entry j.arg j.receiver
                            st.shared,
                          trace := st.trace ++ [.evBody j.id j.arg],
                          workers := Function.update st.workers w
                            (some ⟨j, .bodyDone⟩) }) ∨
    (∃ j, w < st.wcount ∧ st.workers w = some ⟨j, .bodyDone⟩ ∧
      stepWorker st w = { st with
                          trace := st.trace ++ [.evDestroy j.id],
                          workers := Function.update st.workers w
                            (some ⟨j, .destroyed⟩) }) ∨
    (∃ j, w < st.wcount ∧ st.workers w = some ⟨j, .destroyed⟩ ∧
      stepWorker st w = { st with
                          signals := decSig j.sigId st.signals,
                          trace := st.trace ++ [.evComplete j.id],
                          workers := Function.update st.workers w none }) := by
  by_cases hw : w < st.wcount
  · cases hfl : st.workers w with
    | none =>
      cases hp : popBest st.queue with
      | none =>
        refine Or.inl ?_
        unfold stepWorker
        rw [if_pos hw, hfl, hp]
      | some jq =>
        obtain ⟨j, q'⟩ := jq
        refine Or.inr (Or.inl ⟨j, q', hw, rfl, rfl, ?_⟩)
        unfold stepWorker
        rw [if_pos hw, hfl, hp]
    | some fl =>
      obtain ⟨j, ph⟩ := fl
      cases ph with
      | popped =>
        refine Or.inr (Or.inr (Or.inl ⟨j, hw, rfl, ?_⟩))
        unfold stepWorker
        rw [if_pos hw, hfl]
      | bodyDone =>
        refine Or.inr (Or.inr (Or.inr (Or.inl ⟨j, hw, rfl, ?_⟩)))
        unfold stepWorker
        rw [if_pos hw, hfl]
      | destroyed =>
        refine Or.inr (Or.inr (Or.inr (Or.inr ⟨j, hw, rfl, ?_⟩)))
        unfold stepWorker
        rw [if_pos hw, hfl]
  · refine Or.inl ?_
    unfold stepWorker
    rw [if_neg hw]

theorem run_nil (st : SysState) : run st [] = st := rfl

theorem run_cons (st : SysState) (w : Nat) (σ : List Nat) :
    run st (w :: σ) = run (stepWorker st w) σ := rfl

theorem run_append (st : SysState) (σ₁ σ₂ : List Nat) :
    run st (σ₁ ++ σ₂) = run (run st σ₁) σ₂ :=
  List.foldl_append _ _ _ _

theorem run_preserve (P : SysState → Prop)
    (hP : ∀ st w, P st → P (stepWorker st w)) :
    ∀ (σ : List Nat) (st : SysState), P st → P (run st σ) := by
  intro σ
  induction σ with
  | nil => intro st h; exact h
  | cons w σ ih => intro st h; exact ih _ (hP st w h)

theorem runAct_preserve (P : Config → Prop)
    (hW : ∀ cfg w, P cfg → P (doAct cfg (.work w)))
    (hD : ∀ cfg, P cfg → P (doAct cfg .dispatch)) :
    ∀ (σ : List Act) (cfg : Config), P cfg → P (runAct cfg σ) := by
  intro σ
  induction σ with
  | nil => intro cfg h; exact h
  | cons a σ ih =>
    intro cfg h
    refine ih _ ?_
    cases a with
    | work w => exact hW cfg w h
    | dispatch => exact hD cfg h

/-! ## The CompletionSignal ledger invariant -/

theorem SigInv_init (w : Nat) (sh : Shared) : SigInv (initStateWith w sh) := by
  intro s
  show (0 : Int) = _
  unfold liveJobs workerJobs wmap initStateWith
  simp [filterMap_const_none]

theorem SigInv_submit {st : SysState} (h : SigInv st) (j : Job) :
    SigInv (submitJob j st) := by
  intro s
  have hlive : List.Perm (liveJobs (submitJob j st)) (j :: liveJobs st) := by
    unfold liveJobs workerJobs wmap submitJob
    simp only
    rw [List.append_assoc]
    simp only [List.singleton_append]
    exact List.perm_middle
  have hcount := hlive.countP_eq (attachedTo s)
  show register j.sigId st.signals s = _
  unfold register
  rw [hcount, h s, List.countP_cons]
  by_cases hs : j.sigId = some s
  · simp [hs, attachedTo]
  · simp [hs, attachedTo]

theorem SigInv_step {st : SysState} (h : SigInv st) (w : Nat) :
    SigInv (stepWorker st w) := by
  rcases step_cases st w with heq | hpop | hbody | hdest | hcomp
  · rw [heq]; exact h
  · obtain ⟨j, q', hw, hfl, hp, heq⟩ := hpop
    intro s
    have hwm := wmap_update_perm (stepWorker st w) hw
      (some ⟨j, .popped⟩) jobOf (by rw [heq]) (by rw [heq])
    rw [hfl] at hwm
    have e1 : ((some (InFlight.mk j .popped) : Option InFlight).bind
        jobOf).toList = [j] := rfl
    have e2 : ((none : Option InFlight).bind jobOf).toList = [] := rfl
    rw [e1, e2, List.append_nil] at hwm
    have hqueue : (stepWorker st w).queue = q' := by rw [heq]
    have hsig : (stepWorker st w).signals = st.signals := by rw [heq]
    have h1' : (wmap (stepWorker st w) jobOf).countP (attachedTo s) =
        (wmap st jobOf).countP (attachedTo s) +
          List.countP (attachedTo s) [j] := by
      have hc := hwm.countP_eq (attachedTo s)
      rwa [List.countP_append] at hc
    have h2' : st.queue.countP (attachedTo s) =
        List.countP (attachedTo s) [j] + q'.countP (attachedTo s) := by
      have h2 := (popBest_perm hp).countP_eq (attachedTo s)
      rwa [show j :: q' = [j] ++ q' from rfl, List.countP_append] at h2
    have hN : (liveJobs (stepWorker st w)).countP (attachedTo s) =
        (liveJobs st).countP (attachedTo s) := by
      have e3 : liveJobs (stepWorker st w) =
          q' ++ wmap (stepWorker st w) jobOf := by
        show (stepWorker st w).queue ++ wmap (stepWorker st w) jobOf = _
        rw [hqueue]
      have e4 : liveJobs st = st.queue ++ wmap st jobOf := rfl
      rw [e3, e4, List.countP_append, List.countP_append]
      omega
    show (stepWorker st w).signals s = _
    rw [hsig, h s, hN]
  · obtain ⟨j, hw, hfl, heq⟩ := hbody
    intro s
    have hwm := wmap_update_perm (stepWorker st w) hw
      (some ⟨j, .bodyDone⟩) jobOf (by rw [heq]) (by rw [heq])
    rw [hfl] at hwm
    have e1 : ((some (InFlight.mk j .popped) : Option InFlight).bind
        jobOf).toList = [j] := rfl
    have e2 : ((some (InFlight.mk j .bodyDone) : Option InFlight).bind
        jobOf).toList = [j] := rfl
    rw [e1, e2] at hwm
    have hqueue : (stepWorker st w).queue = st.queue := by rw [heq]
    have hsig : (stepWorker st w).signals = st.signals := by rw [heq]
    have h1' : (wmap (stepWorker st w) jobOf).countP (attachedTo s) +
        List.countP (attachedTo s) [j] =
        (wmap st jobOf).countP (attachedTo s) +
          List.countP (attachedTo s) [j] := by
      have hc := hwm.countP_eq (attachedTo s)
      rwa [List.countP_append, List.countP_append] at hc
    have hN : (liveJobs (stepWorker st w)).countP (attachedTo s) =
        (liveJobs st).countP (attachedTo s) := by
      have e3 : liveJobs (stepWorker st w) =
          st.queue ++ wmap (stepWorker st w) jobOf := by
        show (stepWorker st w).queue ++ wmap (stepWorker st w) jobOf = _
        rw [hqueue]
      have e4 : liveJobs st = st.queue ++ wmap st jobOf := rfl
      rw [e3, e4, List.countP_append, List.countP_append]
      omega
    show (stepWorker st w).signals s = _
    rw [hsig, h s, hN]
  · obtain ⟨j, hw, hfl, heq⟩ := hdest
    intro s
    have hwm := wmap_update_perm (stepWorker st w) hw
      (some ⟨j, .destroyed⟩) jobOf (by rw [heq]) (by rw [heq])
    rw [hfl] at hwm
    have e1 : ((some (InFlight.mk j .bodyDone) : Option InFlight).bind
        jobOf).toList = [j] := rfl
    have e2 : ((some (InFlight.mk j .destroyed) : Option InFlight).bind
        jobOf).toList = [j] := rfl
    rw [e1, e2] at hwm
    have hqueue : (stepWorker st w).queue = st.queue := by rw [heq]
    have hsig : (stepWorker st w).signals = st.signals := by rw [heq]
    have h1' : (wmap (stepWorker st w) jobOf).countP (attachedTo s) +
        List.countP (attachedTo s) [j] =
        (wmap st jobOf).countP (attachedTo s) +
          List.countP (attachedTo s) [j] := by
      have hc := hwm.countP_eq (attachedTo s)
      rwa [List.countP_append, List.countP_append] at hc
    have hN : (liveJobs (stepWorker st w)).countP (attachedTo s) =
        (liveJobs st).countP (attachedTo s) := by
      have e3 : liveJobs (stepWorker st w) =
          st.queue ++ wmap (stepWorker st w) jobOf := by
        show (stepWorker st w).queue ++ wmap (stepWorker st w) jobOf = _
        rw [hqueue]
      have e4 : liveJobs st = st.queue ++ wmap st jobOf := rfl
      rw [e3, e4, List.countP_append, List.countP_append]
      omega
    show (stepWorker st w).signals s = _
    rw [hsig, h s, hN]
  · obtain ⟨j, hw, hfl, heq⟩ := hcomp
    intro s
    have hwm := wmap_update_perm (stepWorker st w) hw
      none jobOf (by rw [heq]) (by rw [heq])
    rw [hfl] at hwm
    have e1 : ((some (InFlight.mk j .destroyed) : Option InFlight).bind
        jobOf).toList = [j] := rfl
    have e2 : ((none : Option InFlight).bind jobOf).toList = [] := rfl
    rw [e1, e2, List.append_nil] at hwm
    have hqueue : (stepWorker st w).queue = st.queue := by rw [heq]
    have hsig : (stepWorker st w).signals = decSig j.sigId st.signals := by
      rw [heq]
    have h1' : (wmap (stepWorker st w) jobOf).countP (attachedTo s) +
        List.countP (attachedTo s) [j] =
        (wmap st jobOf).countP (attachedTo s) := by
      have hc := hwm.countP_eq (attachedTo s)
      rwa [List.countP_append] at hc
    have e3 : liveJobs (stepWorker st w) =
        st.queue ++ wmap (stepWorker st w) jobOf := by
      show (stepWorker st w).queue ++ wmap (stepWorker st w) jobOf = _
      rw [hqueue]
    have e4 : liveJobs st = st.queue ++ wmap st jobOf := rfl
    have hs := h s
    show (stepWorker st w).signals s = _
    rw [hsig]
    unfold decSig
    by_cases hjs : j.sigId = some s
    · have cj : List.countP (attachedTo s) [j] = 1 := by
        simp [List.countP_cons, attachedTo, hjs]
      have hN : (liveJobs st).countP (attachedTo s) =
          (liveJobs (stepWorker st w)).countP (attachedTo s) + 1 := by
        rw [e3, e4, List.countP_append, List.countP_append]
        omega
      rw [if_pos hjs, hs, hN]
      push_cast
      omega
    · have cj : List.countP (attachedTo s) [j] = 0 := by
        simp [List.countP_cons, attachedTo, hjs]
      have hN : (liveJobs (stepWorker st w)).countP (attachedTo s) =
          (liveJobs st).countP (attachedTo s) := by
        rw [e3, e4, List.countP_append, List.countP_append]
        omega
      rw [if_neg hjs, hs, hN]

theorem SigInv_run {st : SysState} (h : SigInv st) (σ : List Nat) :
    SigInv (run st σ) :=
  run_preserve SigInv (fun st w h => SigInv_step h w) σ st h

theorem SigInv_nonneg {st : SysState} (h : SigInv st) (s : Nat) :
    0 ≤ st.signals s := by
  rw [h s]; exact Int.natCast_nonneg _

/-! ## Simple step facts -/

theorem stepWorker_wcount (st : SysState) (w : Nat) :
    (stepWorker st w).wcount = st.wcount := by
  rcases step_cases st w with heq | ⟨j, q', _, _, _, heq⟩ | ⟨j, _, _, heq⟩ |
    ⟨j, _, _, heq⟩ | ⟨j, _, _, heq⟩ <;> rw [heq]

theorem stepWorker_oob {st : SysState} {w : Nat} (hw : ¬ w < st.wcount) :
    stepWorker st w = st := by
  unfold stepWorker
  rw [if_neg hw]

theorem run_wcount (st : SysState) (σ : List Nat) :
    (run st σ).wcount = st.wcount := by
  induction σ generalizing st with
  | nil => rfl
  | cons w σ ih => rw [run_cons, ih, stepWorker_wcount]

theorem stepWorker_trace_mono (st : SysState) (w : Nat) :
    ∃ δ, (stepWorker st w).trace = st.trace ++ δ := by
  rcases step_cases st w with heq | ⟨j, q', _, _, _, heq⟩ | ⟨j, _, _, heq⟩ |
    ⟨j, _, _, heq⟩ | ⟨j, _, _, heq⟩
  · exact ⟨[], by rw [heq, List.append_nil]⟩
  · exact ⟨[], by rw [heq, List.append_nil]⟩
  · exact ⟨[.evBody j.id j.arg], by rw [heq]⟩
  · exact ⟨[.evDestroy j.id], by rw [heq]⟩
  · exact ⟨[.evComplete j.id], by rw [heq]⟩

theorem mem_trace_step {st : SysState} {w : Nat} {e : Event}
    (h : e ∈ st.trace) : e ∈ (stepWorker st w).trace := by
  obtain ⟨δ, hδ⟩ := stepWorker_trace_mono st w
  rw [hδ]
  exact List.mem_append_left _ h

theorem mem_trace_submit {st : SysState} {j : Job} {e : Event}
    (h : e ∈ st.trace) : e ∈ (submitJob j st).trace :=
  List.mem_append_left _ h

/-- Counting version of the worker-slot update permutation. -/
theorem wmap_step_countP {st : SysState} {w : Nat} (hw : w < st.wcount)
    {fu v : Option InFlight} (hfl : st.workers w = fu) (st' : SysState)
    (hq : st'.wcount = st.wcount)
    (hwrk : st'.workers = Function.update st.workers w v)
    (g : InFlight → Option Job) (p : Job → Bool) :
    (wmap st' g).countP p + ((fu.bind g).toList).countP p =
      (wmap st g).countP p + ((v.bind g).toList).countP p := by
  have hc := (wmap_update_perm st' hw v g hq hwrk).countP_eq p
  rw [hfl] at hc
  rw [List.countP_append, List.countP_append] at hc
  omega

/-- Membership version of the worker-slot update permutation. -/
theorem wmap_step_mem {st : SysState} {w : Nat} (hw : w < st.wcount)
    {fu v : Option InFlight} (hfl : st.workers w = fu) {st' : SysState}
    (hq : st'.wcount = st.wcount)
    (hwrk : st'.workers = Function.update st.workers w v)
    (g : InFlight → Option Job) {x : Job}
    (hx : x ∈ wmap st' g) :
    x ∈ wmap st g ∨ x ∈ (v.bind g).toList := by
  have hp := wmap_update_perm st' hw v g hq hwrk
  rw [hfl] at hp
  have : x ∈ wmap st g ++ (v.bind g).toList :=
    hp.mem_iff.mp (List.mem_append_left _ hx)
  exact List.mem_append.mp this

/-- All live jobs of a stepped state were live before the step. -/
theorem liveJobs_step_sub {st : SysState} {w : Nat} {x : Job}
    (hx : x ∈ liveJobs (stepWorker st w)) : x ∈ liveJobs st := by
  rcases step_cases st w with heq | ⟨j, q', hw, hfl, hp, heq⟩ |
    ⟨j, hw, hfl, heq⟩ | ⟨j, hw, hfl, heq⟩ | ⟨j, hw, hfl, heq⟩
  · rwa [heq] at hx
  · have hq : (stepWorker st w).queue = q' := by rw [heq]
    have e3 : liveJobs (stepWorker st w) = q' ++ wmap (stepWorker st w) jobOf := by
      show (stepWorker st w).queue ++ wmap (stepWorker st w) jobOf = _
      rw [hq]
    rw [e3] at hx
    rcases List.mem_append.mp hx with hx | hx
    · exact List.mem_append_left _ ((popBest_perm hp).mem_iff.mpr
        (List.mem_cons_of_mem _ hx))
    · rcases wmap_step_mem hw hfl (by rw [heq]) (by rw [heq]) jobOf hx with hx | hx
      · exact List.mem_append_right _ hx
      · have : x = j := by
          simpa [jobOf, Option.toList] using hx
        subst this
        exact List.mem_append_left _ ((popBest_perm hp).mem_iff.mpr
          (List.mem_cons_self _ _))
  · have hq : (stepWorker st w).queue = st.queue := by rw [heq]
    have e3 : liveJobs (stepWorker st w) =
        st.queue ++ wmap (stepWorker st w) jobOf := by
      show (stepWorker st w).queue ++ wmap (stepWorker st w) jobOf = _
      rw [hq]
    rw [e3] at hx
    rcases List.mem_append.mp hx with hx | hx
    · exact List.mem_append_left _ hx
    · rcases wmap_step_mem hw hfl (by rw [heq]) (by rw [heq]) jobOf hx with hx | hx
      · exact List.mem_append_right _ hx
      · have : x = j := by simpa [jobOf, Option.toList] using hx
        subst this
        exact List.mem_append_right _
          (mem_wmap_of_worker hw hfl (g := jobOf) rfl)
  · have hq : (stepWorker st w).queue = st.queue := by rw [heq]
    have e3 : liveJobs (stepWorker st w) =
        st.queue ++ wmap (stepWorker st w) jobOf := by
      show (stepWorker st w).queue ++ wmap (stepWorker st w) jobOf = _
      rw [hq]
    rw [e3] at hx
    rcases List.mem_append.mp hx with hx | hx
    · exact List.mem_append_left _ hx
    · rcases wmap_step_mem hw hfl (by rw [heq]) (by rw [heq]) jobOf hx with hx | hx
      · exact List.mem_append_right _ hx
      · have : x = j := by simpa [jobOf, Option.toList] using hx
        subst this
        exact List.mem_append_right _
          (mem_wmap_of_worker hw hfl (g := jobOf) rfl)
  · have hq : (stepWorker st w).queue = st.queue := by rw [heq]
    have e3 : liveJobs (stepWorker st w) =
        st.queue ++ wmap (stepWorker st w) jobOf := by
      show (stepWorker st w).queue ++ wmap (stepWorker st w) jobOf = _
      rw [hq]
    rw [e3] at hx
    rcases List.mem_append.mp hx with hx | hx
    · exact List.mem_append_left _ hx
    · rcases wmap_step_mem hw hfl (by rw [heq]) (by rw [heq]) jobOf hx with hx | hx
      · exact List.mem_append_right _ hx
      · simp [Option.toList] at hx

/-- Submission makes exactly the submitted job live, on top of the old
live set. -/
theorem liveJobs_submit_perm (j : Job) (st : SysState) :
    List.Perm (liveJobs (submitJob j st)) (j :: liveJobs st) := by
  unfold liveJobs workerJobs wmap submitJob
  simp only
  rw [List.append_assoc]
  simp only [List.singleton_append]
  exact List.perm_middle

/-! ## Per-phase worker collections -/

/-- Select a worker's job only when it is in phase `ph`. -/
def phSel (ph : Phase) : InFlight → Option Job :=
  fun f => if f.phase = ph then some f.job else none

/-- The jobs currently held by workers in phase `ph`. -/
def phJobs (ph : Phase) (st : SysState) : List Job := wmap st (phSel ph)

theorem phJobs_sub_workerJobs {ph : Phase} {st : SysState} {x : Job}
    (hx : x ∈ phJobs ph st) : x ∈ workerJobs st := by
  unfold phJobs wmap at hx
  obtain ⟨u, hu, hbind⟩ := List.mem_filterMap.mp hx
  cases hfl : st.workers u with
  | none => rw [hfl] at hbind; simp at hbind
  | some fl =>
    rw [hfl] at hbind
    have hsel : phSel ph fl = some x := by simpa using hbind
    have hjob : fl.job = x := by
      unfold phSel at hsel
      by_cases hph : fl.phase = ph
      · rw [if_pos hph] at hsel; exact Option.some.inj hsel
      · rw [if_neg hph] at hsel; exact absurd hsel (by simp)
    exact mem_wmap_of_worker (List.mem_range.mp hu) hfl
      (g := jobOf) (by show some fl.job = some x; rw [hjob])

theorem workerJobs_nil_of_live_nil {st : SysState}
    (h : liveJobs st = []) : st.queue = [] ∧ workerJobs st = [] :=
  List.append_eq_nil.mp h

theorem phJobs_nil_of_live_nil {st : SysState} (h : liveJobs st = [])
    (ph : Phase) : phJobs ph st = [] := by
  rcases workerJobs_nil_of_live_nil h with ⟨-, hw⟩
  rcases hfl : phJobs ph st with _ | ⟨x, xs⟩
  · rfl
  · exfalso
    have : x ∈ phJobs ph st := by rw [hfl]; exact List.mem_cons_self _ _
    have := phJobs_sub_workerJobs this
    rw [hw] at this
    simp at this

/-! ## Event counters and the run_now ordering ledger -/

/-- Recognise the body event of a given job id. -/
def isBodyOf (jid : Nat) : Event → Bool
  | .evBody j _ => decide (j = jid)
  | _ => false

/-- Recognise the snapshot-destruction event of a given job id. -/
def isDestroyOf (jid : Nat) : Event → Bool
  | .evDestroy j => decide (j = jid)
  | _ => false

/-- Recognise the completion event of a given job id. -/
def isCompleteOf (jid : Nat) : Event → Bool
  | .evComplete j => decide (j = jid)
  | _ => false

/-- Recognise a job by id. -/
def pid (jid : Nat) : Job → Bool := fun j => decide (j.id = jid)

/-- The run_now ordering ledger: body events of a job id split into the
workers currently past the body (per phase) plus the completions, and
destroy events split into workers past destruction plus completions.
Consequences: completions never outnumber destructions, destructions
never outnumber body runs. -/
def EvInv (st : SysState) : Prop :=
  ∀ jid,
    st.trace.countP (isBodyOf jid) =
      (phJobs .bodyDone st).countP (pid jid) +
      (phJobs .destroyed st).countP (pid jid) +
      st.trace.countP (isCompleteOf jid) ∧
    st.trace.countP (isDestroyOf jid) =
      (phJobs .destroyed st).countP (pid jid) +
      st.trace.countP (isCompleteOf jid)

theorem EvInv_init (w : Nat) (sh : Shared) : EvInv (initStateWith w sh) := by
  intro jid
  constructor <;>
    simp [initStateWith, phJobs, wmap, filterMap_const_none, List.countP_nil]

theorem EvInv_submit {st : SysState} (h : EvInv st) (j : Job) :
    EvInv (submitJob j st) := by
  intro jid
  obtain ⟨h1, h2⟩ := h jid
  have htr : (submitJob j st).trace =
      st.trace ++ (regEvents j.sigId ++ [Event.evPush j.id]) := rfl
  have hph1 : phJobs .bodyDone (submitJob j st) = phJobs .bodyDone st := rfl
  have hph2 : phJobs .destroyed (submitJob j st) = phJobs .destroyed st := rfl
  have hzB : (regEvents j.sigId ++ [Event.evPush j.id]).countP
      (isBodyOf jid) = 0 := by
    cases hs : j.sigId <;>
      simp [regEvents, List.countP_append, List.countP_cons, isBodyOf]
  have hzD : (regEvents j.sigId ++ [Event.evPush j.id]).countP
      (isDestroyOf jid) = 0 := by
    cases hs : j.sigId <;>
      simp [regEvents, List.countP_append, List.countP_cons, isDestroyOf]
  have hzC : (regEvents j.sigId ++ [Event.evPush j.id]).countP
      (isCompleteOf jid) = 0 := by
    cases hs : j.sigId <;>
      simp [regEvents, List.countP_append, List.countP_cons, isCompleteOf]
  constructor
  · rw [htr]
    simp only [List.countP_append, hph1, hph2, hzB, hzC]
    omega
  · rw [htr]
    simp only [List.countP_append, hph2, hzD, hzC]
    omega

theorem EvInv_step {st : SysState} (h : EvInv st) (w : Nat) :
    EvInv (stepWorker st w) := by
  rcases step_cases st w with heq | ⟨j, q', hw, hfl, hp, heq⟩ |
    ⟨j, hw, hfl, heq⟩ | ⟨j, hw, hfl, heq⟩ | ⟨j, hw, hfl, heq⟩
  · rw [heq]; exact h
  · intro jid
    obtain ⟨h1, h2⟩ := h jid
    have htr : (stepWorker st w).trace = st.trace := by rw [heq]
    have hbd := wmap_step_countP hw hfl (stepWorker st w)
      (by rw [heq]) (by rw [heq]) (phSel .bodyDone) (pid jid)
    have hds := wmap_step_countP hw hfl (stepWorker st w)
      (by rw [heq]) (by rw [heq]) (phSel .destroyed) (pid jid)
    have e1 : (((none : Option InFlight).bind (phSel .bodyDone)).toList :
        List Job) = [] := rfl
    have e2 : (((some (InFlight.mk j .popped) : Option InFlight).bind
        (phSel .bodyDone)).toList) = [] := rfl
    have e3 : (((none : Option InFlight).bind (phSel .destroyed)).toList :
        List Job) = [] := rfl
    have e4 : (((some (InFlight.mk j .popped) : Option InFlight).bind
        (phSel .destroyed)).toList) = [] := rfl
    rw [e1, e2] at hbd
    rw [e3, e4] at hds
    simp only [List.countP_nil] at hbd hds
    constructor
    · rw [htr]
      unfold phJobs at h1 h2 ⊢
      omega
    · rw [htr]
      unfold phJobs at h1 h2 ⊢
      omega
  · intro jid
    obtain ⟨h1, h2⟩ := h jid
    have htr : (stepWorker st w).trace =
        st.trace ++ [Event.evBody j.id j.arg] := by rw [heq]
    have hbd := wmap_step_countP hw hfl (stepWorker st w)
      (by rw [heq]) (by rw [heq]) (phSel .bodyDone) (pid jid)
    have hds := wmap_step_countP hw hfl (stepWorker st w)
      (by rw [heq]) (by rw [heq]) (phSel .destroyed) (pid jid)
    have e1 : (((some (InFlight.mk j .popped) : Option InFlight).bind
        (phSel .bodyDone)).toList) = [] := rfl
    have e2 : (((some (InFlight.mk j .bodyDone) : Option InFlight).bind
        (phSel .bodyDone)).toList) = [j] := rfl
    have e3 : (((some (InFlight.mk j .popped) : Option InFlight).bind
        (phSel .destroyed)).toList) = [] := rfl
    have e4 : (((some (InFlight.mk j .bodyDone) : Option InFlight).bind
        (phSel .destroyed)).toList) = [] := rfl
    rw [e1, e2] at hbd
    rw [e3, e4] at hds
    simp only [List.countP_nil] at hbd hds
    have hB : List.countP (isBodyOf jid) [Event.evBody j.id j.arg] =
        List.countP (pid jid) [j] := by
      simp [List.countP_cons, isBodyOf, pid]
    have hD : List.countP (isDestroyOf jid) [Event.evBody j.id j.arg] = 0 := by
      simp [List.countP_cons, isDestroyOf]
    have hC : List.countP (isCompleteOf jid) [Event.evBody j.id j.arg] = 0 := by
      simp [List.countP_cons, isCompleteOf]
    constructor
    · rw [htr]
      simp only [List.countP_append]
      unfold phJobs at h1 h2 ⊢
      omega
    · rw [htr]
      simp only [List.countP_append]
      unfold phJobs at h1 h2 ⊢
      omega
  · intro jid
    obtain ⟨h1, h2⟩ := h jid
    have htr : (stepWorker st w).trace =
        st.trace ++ [Event.evDestroy j.id] := by rw [heq]
    have hbd := wmap_step_countP hw hfl (stepWorker st w)
      (by rw [heq]) (by rw [heq]) (phSel .bodyDone) (pid jid)
    have hds := wmap_step_countP hw hfl (stepWorker st w)
      (by rw [heq]) (by rw [heq]) (phSel .destroyed) (pid jid)
    have e1 : (((some (InFlight.mk j .bodyDone) : Option InFlight).bind
        (phSel .bodyDone)).toList) = [j] := rfl
    have e2 : (((some (InFlight.mk j .destroyed) : Option InFlight).bind
        (phSel .bodyDone)).toList) = [] := rfl
    have e3 : (((some (InFlight.mk j .bodyDone) : Option InFlight).bind
        (phSel .destroyed)).toList) = [] := rfl
    have e4 : (((some (InFlight.mk j .destroyed) : Option InFlight).bind
        (phSel .destroyed)).toList) = [j] := rfl
    rw [e1, e2] at hbd
    rw [e3, e4] at hds
    simp only [List.countP_nil] at hbd hds
    have hB : List.countP (isBodyOf jid) [Event.evDestroy j.id] = 0 := by
      simp [List.countP_cons, isBodyOf]
    have hD : List.countP (isDestroyOf jid) [Event.evDestroy j.id] =
        List.countP (pid jid) [j] := by
      simp [List.countP_cons, isDestroyOf, pid]
    have hC : List.countP (isCompleteOf jid) [Event.evDestroy j.id] = 0 := by
      simp [List.countP_cons, isCompleteOf]
    constructor
    · rw [htr]
      simp only [List.countP_append]
      unfold phJobs at h1 h2 ⊢
      omega
    · rw [htr]
      simp only [List.countP_append]
      unfold phJobs at h1 h2 ⊢
      omega
  · intro jid
    obtain ⟨h1, h2⟩ := h jid
    have htr : (stepWorker st w).trace =
        st.trace ++ [Event.evComplete j.id] := by rw [heq]
    have hbd := wmap_step_countP hw hfl (stepWorker st w)
      (by rw [heq]) (by rw [heq]) (phSel .bodyDone) (pid jid)
    have hds := wmap_step_countP hw hfl (stepWorker st w)
      (by rw [heq]) (by rw [heq]) (phSel .destroyed) (pid jid)
    have e1 : (((some (InFlight.mk j .destroyed) : Option InFlight).bind
        (phSel .bodyDone)).toList) = [] := rfl
    have e2 : (((none : Option InFlight).bind (phSel .bodyDone)).toList :
        List Job) = [] := rfl
    have e3 : (((some (InFlight.mk j .destroyed) : Option InFlight).bind
        (phSel .destroyed)).toList) = [j] := rfl
    have e4 : (((none : Option InFlight).bind (phSel .destroyed)).toList :
        List Job) = [] := rfl
    rw [e1, e2] at hbd
    rw [e3, e4] at hds
    simp only [List.countP_nil] at hbd hds
    have hB : List.countP (isBodyOf jid) [Event.evComplete j.id] = 0 := by
      simp [List.countP_cons, isBodyOf]
    have hD : List.countP (isDestroyOf jid) [Event.evComplete j.id] = 0 := by
      simp [List.countP_cons, isDestroyOf]
    have hC : List.countP (isCompleteOf jid) [Event.evComplete j.id] =
        List.countP (pid jid) [j] := by
      simp [List.countP_cons, isCompleteOf, pid]
    constructor
    · rw [htr]
      simp only [List.countP_append]
      unfold phJobs at h1 h2 ⊢
      omega
    · rw [htr]
      simp only [List.countP_append]
      unfold phJobs at h1 h2 ⊢
      omega

/-- A zero pending count means no live job is attached to the signal. -/
theorem no_live_of_zero {st : SysState} (h : SigInv st) {s : Nat}
    (hz : st.signals s = 0) :
    ∀ j ∈ liveJobs st, j.sigId ≠ some s := by
  intro j hj hjs
  have hc : ((liveJobs st).countP (attachedTo s) : Int) = 0 := by
    rw [← h s]; exact hz
  have hc' : (liveJobs st).countP (attachedTo s) = 0 := by exact_mod_cast hc
  have : 0 < (liveJobs st).countP (attachedTo s) :=
    List.countP_pos.mpr ⟨j, hj, by simp [attachedTo, hjs]⟩
  omega

/-! ## Preservation across whole-system actions -/

theorem SigInv_doAct {cfg : Config} (h : SigInv cfg.st) (a : Act) :
    SigInv (doAct cfg a).st := by
  cases a with
  | work w => exact SigInv_step h w
  | dispatch =>
    cases hp : cfg.pending with
    | nil => simpa [doAct, hp] using h
    | cons j rest => simpa [doAct, hp] using SigInv_submit h j

theorem EvInv_doAct {cfg : Config} (h : EvInv cfg.st) (a : Act) :
    EvInv (doAct cfg a).st := by
  cases a with
  | work w => exact EvInv_step h w
  | dispatch =>
    cases hp : cfg.pending with
    | nil => simpa [doAct, hp] using h
    | cons j rest => simpa [doAct, hp] using EvInv_submit h j

theorem SigInv_runAct (W : Nat) (sh : Shared) (jobs : List Job)
    (σ : List Act) :
    SigInv (runAct ⟨initStateWith W sh, jobs⟩ σ).st :=
  runAct_preserve (fun c => SigInv c.st)
    (fun c w h => SigInv_doAct h (.work w))
    (fun c h => SigInv_doAct h .dispatch) σ _ (SigInv_init W sh)

theorem EvInv_runAct (W : Nat) (sh : Shared) (jobs : List Job)
    (σ : List Act) :
    EvInv (runAct ⟨initStateWith W sh, jobs⟩ σ).st :=
  runAct_preserve (fun c => EvInv c.st)
    (fun c w h => EvInv_doAct h (.work w))
    (fun c h => EvInv_doAct h .dispatch) σ _ (EvInv_init W sh)

/-- C4.  CompletionSignal counter invariant: along every interleaving of
client submissions and worker steps from a fresh scheduler, (i) no
pending-count ever goes negative; (ii) every pending-count equals the
number of registered-but-not-yet-completed jobs attached to it — the
ledger form of "incremented exactly once per registration, decremented
exactly once per completion"; (iii) for every job id, completion events
never outnumber destroy events and destroy events never outnumber body
events, so a decrement fires only after the job's body and captured state
are gone and a registration is never observed after its matching
completion; (iv) submission performs `register()` and then the queue push,
in that order, before the job is eligible for dispatch. -/
theorem C4_completion_counter_invariant (W : Nat) (sh : Shared)
    (jobs : List Job) (σ : List Act) :
    (∀ s, 0 ≤ (runAct ⟨initStateWith W sh, jobs⟩ σ).st.signals s) ∧
    (∀ s, (runAct ⟨initStateWith W sh, jobs⟩ σ).st.signals s =
      ((liveJobs (runAct ⟨initStateWith W sh, jobs⟩ σ).st).countP
        (attachedTo s) : Int)) ∧
    (∀ jid,
      (runAct ⟨initStateWith W sh, jobs⟩ σ).st.trace.countP
          (isCompleteOf jid) ≤
        (runAct ⟨initStateWith W sh, jobs⟩ σ).st.trace.countP
          (isDestroyOf jid) ∧
      (runAct ⟨initStateWith W sh, jobs⟩ σ).st.trace.countP
          (isDestroyOf jid) ≤
        (runAct ⟨initStateWith W sh, jobs⟩ σ).st.trace.countP
          (isBodyOf jid)) ∧
    (∀ (j : Job) (st : SysState),
      (submitJob j st).trace =
        st.trace ++ (regEvents j.sigId ++ [Event.evPush j.id])) := by
  have hS := SigInv_runAct W sh jobs σ
  have hE := EvInv_runAct W sh jobs σ
  refine ⟨fun s => SigInv_nonneg hS s, fun s => hS s, fun jid => ?_, fun j st => rfl⟩
  obtain ⟨e1, e2⟩ := hE jid
  omega

/-! ## Body-event tracking -/

/-- A worker past the `popped` phase has already logged the body event of
the job it holds. -/
def BodyEvInv (st : SysState) : Prop :=
  ∀ w fl, w < st.wcount → st.workers w = some fl → fl.phase ≠ Phase.popped →
    Event.evBody fl.job.id fl.job.arg ∈ st.trace

theorem BodyEvInv_init (w : Nat) (sh : Shared) :
    BodyEvInv (initStateWith w sh) := by
  intro u fl hu hfl hph
  simp [initStateWith] at hfl

theorem BodyEvInv_submit {st : SysState} (h : BodyEvInv st) (j : Job) :
    BodyEvInv (submitJob j st) := by
  intro u fl hu hfl hph
  exact mem_trace_submit (h u fl hu hfl hph)

theorem BodyEvInv_step {st : SysState} (h : BodyEvInv st) (w : Nat) :
    BodyEvInv (stepWorker st w) := by
  rcases step_cases st w with heq | ⟨j, q', hw, hfl, hp, heq⟩ |
    ⟨j, hw, hfl, heq⟩ | ⟨j, hw, hfl, heq⟩ | ⟨j, hw, hfl, heq⟩
  · rw [heq]; exact h
  · intro u fl hu hfl' hph
    have hwc : (stepWorker st w).wcount = st.wcount := by rw [heq]
    have hwk : (stepWorker st w).workers =
        Function.update st.workers w (some ⟨j, .popped⟩) := by rw [heq]
    have htr : (stepWorker st w).trace = st.trace := by rw [heq]
    rw [hwk] at hfl'
    rw [htr]
    by_cases huw : u = w
    · subst huw
      rw [Function.update_same] at hfl'
      have hv : fl = ⟨j, .popped⟩ := (Option.some.inj hfl').symm
      rw [hv] at hph
      exact absurd rfl hph
    · rw [Function.update_noteq huw] at hfl'
      exact h u fl (by rw [hwc] at hu; exact hu) hfl' hph
  · intro u fl hu hfl' hph
    have hwc : (stepWorker st w).wcount = st.wcount := by rw [heq]
    have hwk : (stepWorker st w).workers =
        Function.update st.workers w (some ⟨j, .bodyDone⟩) := by rw [heq]
    have htr : (stepWorker st w).trace =
        st.trace ++ [Event.evBody j.id j.arg] := by rw [heq]
    rw [hwk] at hfl'
    rw [htr]
    by_cases huw : u = w
    · subst huw
      rw [Function.update_same] at hfl'
      have hv : fl = ⟨j, .bodyDone⟩ := (Option.some.inj hfl').symm
      rw [hv]
      exact List.mem_append_right _ (List.mem_singleton.mpr rfl)
    · rw [Function.update_noteq huw] at hfl'
      exact List.mem_append_left _ (h u fl (by rw [hwc] at hu; exact hu) hfl' hph)
  · intro u fl hu hfl' hph
    have hwc : (stepWorker st w).wcount = st.wcount := by rw [heq]
    have hwk : (stepWorker st w).workers =
        Function.update st.workers w (some ⟨j, .destroyed⟩) := by rw [heq]
    have htr : (stepWorker st w).trace =
        st.trace ++ [Event.evDestroy j.id] := by rw [heq]
    rw [hwk] at hfl'
    rw [htr]
    by_cases huw : u = w
    · subst huw
      rw [Function.update_same] at hfl'
      have hv : fl = ⟨j, .destroyed⟩ := (Option.some.inj hfl').symm
      rw [hv]
      exact List.mem_append_left _
        (h u ⟨j, .bodyDone⟩ hw hfl (by simp))
    · rw [Function.update_noteq huw] at hfl'
      exact List.mem_append_left _ (h u fl (by rw [hwc] at hu; exact hu) hfl' hph)
  · intro u fl hu hfl' hph
    have hwc : (stepWorker st w).wcount = st.wcount := by rw [heq]
    have hwk : (stepWorker st w).workers =
        Function.update st.workers w none := by rw [heq]
    have htr : (stepWorker st w).trace =
        st.trace ++ [Event.evComplete j.id] := by rw [heq]
    rw [hwk] at hfl'
    rw [htr]
    by_cases huw : u = w
    · subst huw
      rw [Function.update_same] at hfl'
      exact absurd hfl' (by simp)
    · rw [Function.update_noteq huw] at hfl'
      exact List.mem_append_left _ (h u fl (by rw [hwc] at hu; exact hu) hfl' hph)

/-- A job live before a worker step is either still live afterwards, or
its body event is already in the trace. -/
theorem liveJobs_step_mem_forward {st : SysState} {w : Nat} {x : Job}
    (hB : BodyEvInv st) (hx : x ∈ liveJobs st) :
    x ∈ liveJobs (stepWorker st w) ∨
      Event.evBody x.id x.arg ∈ (stepWorker st w).trace := by
  rcases step_cases st w with heq | ⟨j, q', hw, hfl, hp, heq⟩ |
    ⟨j, hw, hfl, heq⟩ | ⟨j, hw, hfl, heq⟩ | ⟨j, hw, hfl, heq⟩
  · rw [heq]; exact Or.inl hx
  · left
    have hwc : (stepWorker st w).wcount = st.wcount := by rw [heq]
    have hwk : (stepWorker st w).workers =
        Function.update st.workers w (some ⟨j, .popped⟩) := by rw [heq]
    have hq : (stepWorker st w).queue = q' := by rw [heq]
    have e3 : liveJobs (stepWorker st w) =
        q' ++ wmap (stepWorker st w) jobOf := by
      show (stepWorker st w).queue ++ wmap (stepWorker st w) jobOf = _
      rw [hq]
    have hmemj : j ∈ wmap (stepWorker st w) jobOf := by
      have hfl2 : (stepWorker st w).workers w = some ⟨j, .popped⟩ := by
        rw [hwk, Function.update_same]
      exact mem_wmap_of_worker (by rw [hwc]; exact hw) hfl2 (g := jobOf) rfl
    have hwm := wmap_update_perm (stepWorker st w) hw
      (some ⟨j, .popped⟩) jobOf (by rw [heq]) (by rw [heq])
    rw [hfl] at hwm
    have e1 : ((none : Option InFlight).bind jobOf).toList = [] := rfl
    have e2 : ((some (InFlight.mk j .popped) : Option InFlight).bind
        jobOf).toList = [j] := rfl
    rw [e1, e2, List.append_nil] at hwm
    rw [e3]
    rcases List.mem_append.mp hx with hxq | hxw
    · rcases List.mem_cons.mp ((popBest_perm hp).mem_iff.mp hxq) with rfl | hxq'
      · exact List.mem_append_right _ hmemj
      · exact List.mem_append_left _ hxq'
    · have : x ∈ wmap (stepWorker st w) jobOf :=
        hwm.symm.mem_iff.mp (List.mem_append_left _ hxw)
      exact List.mem_append_right _ this
  · left
    have hwc : (stepWorker st w).wcount = st.wcount := by rw [heq]
    have hwk : (stepWorker st w).workers =
        Function.update st.workers w (some ⟨j, .bodyDone⟩) := by rw [heq]
    have hq : (stepWorker st w).queue = st.queue := by rw [heq]
    have e3 : liveJobs (stepWorker st w) =
        st.queue ++ wmap (stepWorker st w) jobOf := by
      show (stepWorker st w).queue ++ wmap (stepWorker st w) jobOf = _
      rw [hq]
    have hmemj : j ∈ wmap (stepWorker st w) jobOf := by
      have hfl2 : (stepWorker st w).workers w = some ⟨j, .bodyDone⟩ := by
        rw [hwk, Function.update_same]
      exact mem_wmap_of_worker (by rw [hwc]; exact hw) hfl2 (g := jobOf) rfl
    have hwm := wmap_update_perm (stepWorker st w) hw
      (some ⟨j, .bodyDone⟩) jobOf (by rw [heq]) (by rw [heq])
    rw [hfl] at hwm
    have e1 : ((some (InFlight.mk j .popped) : Option InFlight).bind
        jobOf).toList = [j] := rfl
    have e2 : ((some (InFlight.mk j .bodyDone) : Option InFlight).bind
        jobOf).toList = [j] := rfl
    rw [e1, e2] at hwm
    rw [e3]
    rcases List.mem_append.mp hx with hxq | hxw
    · exact List.mem_append_left _ hxq
    · have : x ∈ wmap (stepWorker st w) jobOf ++ [j] :=
        hwm.symm.mem_iff.mp (List.mem_append_left _ hxw)
      rcases List.mem_append.mp this with hx' | hx'
      · exact List.mem_append_right _ hx'
      · have : x = j := List.mem_singleton.mp hx'
        subst this
        exact List.mem_append_right _ hmemj
  · left
    have hwc : (stepWorker st w).wcount = st.wcount := by rw [heq]
    have hwk : (stepWorker st w).workers =
        Function.update st.workers w (some ⟨j, .destroyed⟩) := by rw [heq]
    have hq : (stepWorker st w).queue = st.queue := by rw [heq]
    have e3 : liveJobs (stepWorker st w) =
        st.queue ++ wmap (stepWorker st w) jobOf := by
      show (stepWorker st w).queue ++ wmap (stepWorker st w) jobOf = _
      rw [hq]
    have hmemj : j ∈ wmap (stepWorker st w) jobOf := by
      have hfl2 : (stepWorker st w).workers w = some ⟨j, .destroyed⟩ := by
        rw [hwk, Function.update_same]
      exact mem_wmap_of_worker (by rw [hwc]; exact hw) hfl2 (g := jobOf) rfl
    have hwm := wmap_update_perm (stepWorker st w) hw
      (some ⟨j, .destroyed⟩) jobOf (by rw [heq]) (by rw [heq])
    rw [hfl] at hwm
    have e1 : ((some (InFlight.mk j .bodyDone) : Option InFlight).bind
        jobOf).toList = [j] := rfl
    have e2 : ((some (InFlight.mk j .destroyed) : Option InFlight).bind
        jobOf).toList = [j] := rfl
    rw [e1, e2] at hwm
    rw [e3]
    rcases List.mem_append.mp hx with hxq | hxw
    · exact List.mem_append_left _ hxq
    · have : x ∈ wmap (stepWorker st w) jobOf ++ [j] :=
        hwm.symm.mem_iff.mp (List.mem_append_left _ hxw)
      rcases List.mem_append.mp this with hx' | hx'
      · exact List.mem_append_right _ hx'
      · have : x = j := List.mem_singleton.mp hx'
        subst this
        exact List.mem_append_right _ hmemj
  · have hq : (stepWorker st w).queue = st.queue := by rw [heq]
    have htr : (stepWorker st w).trace =
        st.trace ++ [Event.evComplete j.id] := by rw [heq]
    have e3 : liveJobs (stepWorker st w) =
        st.queue ++ wmap (stepWorker st w) jobOf := by
      show (stepWorker st w).queue ++ wmap (stepWorker st w) jobOf = _
      rw [hq]
    have hwm := wmap_update_perm (stepWorker st w) hw
      none jobOf (by rw [heq]) (by rw [heq])
    rw [hfl] at hwm
    have e1 : ((some (InFlight.mk j .destroyed) : Option InFlight).bind
        jobOf).toList = [j] := rfl
    have e2 : ((none : Option InFlight).bind jobOf).toList = [] := rfl
    rw [e1, e2, List.append_nil] at hwm
    rcases List.mem_append.mp hx with hxq | hxw
    · exact Or.inl (by rw [e3]; exact List.mem_append_left _ hxq)
    · have : x ∈ wmap (stepWorker st w) jobOf ++ [j] :=
        hwm.symm.mem_iff.mp hxw
      rcases List.mem_append.mp this with hx' | hx'
      · exact Or.inl (by rw [e3]; exact List.mem_append_right _ hx')
      · have : x = j := List.mem_singleton.mp hx'
        subst this
        right
        rw [htr]
        exact List.mem_append_left _ (hB w ⟨x, .destroyed⟩ hw hfl (by simp))

/-- A job is tracked when it is still waiting for submission, live inside
the scheduler, or has already run its body. -/
def TrackedJob (j : Job) (cfg : Config) : Prop :=
  j ∈ cfg.pending ∨ j ∈ liveJobs cfg.st ∨ Event.evBody j.id j.arg ∈ cfg.st.trace

theorem TrackedJob_doAct {cfg : Config} {x : Job} (hB : BodyEvInv cfg.st)
    (h : TrackedJob x cfg) (a : Act) : TrackedJob x (doAct cfg a) := by
  cases a with
  | dispatch =>
    cases hp : cfg.pending with
    | nil =>
      have : doAct cfg .dispatch = cfg := by simp [doAct, hp]
      rw [this]; exact h
    | cons j rest =>
      have hst : (doAct cfg .dispatch).st = submitJob j cfg.st := by
        simp [doAct, hp]
      have hpd : (doAct cfg .dispatch).pending = rest := by
        simp [doAct, hp]
      rcases h with hpend | hlive | htr
      · rw [hp] at hpend
        rcases List.mem_cons.mp hpend with rfl | hm
        · right; left
          rw [hst]
          exact (liveJobs_submit_perm x cfg.st).mem_iff.mpr
            (List.mem_cons_self _ _)
        · left
          rw [hpd]; exact hm
      · right; left
        rw [hst]
        exact (liveJobs_submit_perm j cfg.st).mem_iff.mpr
          (List.mem_cons_of_mem _ hlive)
      · right; right
        rw [hst]
        exact mem_trace_submit htr
  | work w =>
    rcases h with hpend | hlive | htr
    · exact Or.inl hpend
    · rcases liveJobs_step_mem_forward (w := w) hB hlive with hl | hb
      · exact Or.inr (Or.inl hl)
      · exact Or.inr (Or.inr hb)
    · exact Or.inr (Or.inr (mem_trace_step htr))

theorem BodyEvInv_doAct {cfg : Config} (h : BodyEvInv cfg.st) (a : Act) :
    BodyEvInv (doAct cfg a).st := by
  cases a with
  | work w => exact BodyEvInv_step h w
  | dispatch =>
    cases hp : cfg.pending with
    | nil => simpa [doAct, hp] using h
    | cons j rest => simpa [doAct, hp] using BodyEvInv_submit h j

theorem SigInv_doAct_run {cfg : Config} (h : SigInv cfg.st) (σ : List Act) :
    SigInv (runAct cfg σ).st :=
  runAct_preserve (fun c => SigInv c.st)
    (fun c w hc => SigInv_doAct hc (.work w))
    (fun c hc => SigInv_doAct hc .dispatch) σ cfg h

/-- If every job of a batch is tracked and attached to signal `s`, then
after any interleaving that has submitted everything and driven the
pending count of `s` to zero, every job of the batch has run its body. -/
theorem batch_bodies (batch : List Job) (cfg : Config) (σ : List Act)
    (hB : BodyEvInv cfg.st) (hT : ∀ j ∈ batch, TrackedJob j cfg)
    (hS : SigInv cfg.st) (s : Nat)
    (hatt : ∀ j ∈ batch, j.sigId = some s)
    (hpend : (runAct cfg σ).pending = [])
    (hz : (runAct cfg σ).st.signals s = 0) :
    ∀ j ∈ batch, Event.evBody j.id j.arg ∈ (runAct cfg σ).st.trace := by
  have hP := runAct_preserve
    (fun c => BodyEvInv c.st ∧ ∀ j ∈ batch, TrackedJob j c)
    (fun c w hc => ⟨BodyEvInv_doAct hc.1 (.work w),
      fun j hj => TrackedJob_doAct hc.1 (hc.2 j hj) (.work w)⟩)
    (fun c hc => ⟨BodyEvInv_doAct hc.1 .dispatch,
      fun j hj => TrackedJob_doAct hc.1 (hc.2 j hj) .dispatch⟩)
    σ cfg ⟨hB, hT⟩
  have hS' := SigInv_doAct_run hS σ
  intro j hj
  rcases hP.2 j hj with hpd | hl | ht
  · rw [hpend] at hpd
    simp at hpd
  · exact absurd (hatt j hj) (no_live_of_zero hS' hz j hl)
  · exact ht

/-! ## Slot-array scenario (MemberFunctionJobMultiple) -/

theorem setSlot_length : ∀ (l : List Int) (i : Nat) (v : Int),
    (setSlot l i v).length = l.length := by
  intro l
  induction l with
  | nil => intro i v; rfl
  | cons x xs ih =>
    intro i v
    cases i with
    | zero => rfl
    | succ i => simp [setSlot, ih]

theorem getSlot_setSlot_self : ∀ (l : List Int) (i : Nat) (v : Int),
    i < l.length → getSlot (setSlot l i v) i = v := by
  intro l
  induction l with
  | nil => intro i v h; simp at h
  | cons x xs ih =>
    intro i v h
    cases i with
    | zero => rfl
    | succ i =>
      show getSlot (setSlot xs i v) i = v
      exact ih i v (by simpa using h)

theorem getSlot_setSlot_ne : ∀ (l : List Int) (i k : Nat) (v : Int),
    i ≠ k → getSlot (setSlot l i v) k = getSlot l k := by
  intro l
  induction l with
  | nil => intro i k v h; rfl
  | cons x xs ih =>
    intro i k v h
    cases i with
    | zero =>
      cases k with
      | zero => exact absurd rfl h
      | succ k => rfl
    | succ i =>
      cases k with
      | zero => rfl
      | succ k => exact ih i k v (fun hh => h (by rw [hh]))

theorem liveJobs_init (w : Nat) (sh : Shared) :
    liveJobs (initStateWith w sh) = [] := by
  have hfn : (fun u => (((initStateWith w sh).workers u).bind jobOf)) =
      fun _ => (none : Option Job) := by funext u; rfl
  show [] ++ wmap (initStateWith w sh) jobOf = []
  unfold wmap
  rw [hfn, filterMap_const_none]
  rfl

/-- One of the 100 member-function jobs of `MemberFunctionJobMultiple`:
job `i` carries argument `i` and writes it to its private slot `i`. -/
def mkSlotJob (i : Nat) : Job :=
  { id := i, prio := .eStreamPriority, sigId := some 0, arg := .intV i,
    receiver := none, entry := .slotWrite }

/-- Shared memory with a preallocated array of `N` slots. -/
def slotsShared (N : Nat) : Shared :=
  { initShared with slots := List.replicate N 0 }

/-- The `MemberFunctionJobMultiple` configuration: an 8-worker pool and
`N` slot jobs to submit, all registered to signal 0. -/
def cfgSlots (N : Nat) : Config :=
  ⟨initStateWith 8 (slotsShared N), (List.range N).map mkSlotJob⟩

/-- Invariant of the slot scenario: only scenario jobs ever circulate, the
array keeps its size, and each index has either not yet run its body
(pending, queued, or popped-but-not-run) or its slot already holds its
index. -/
def SlotInv (N : Nat) (cfg : Config) : Prop :=
  (∀ j ∈ cfg.pending, ∃ i, i < N ∧ j = mkSlotJob i) ∧
  (∀ j ∈ liveJobs cfg.st, ∃ i, i < N ∧ j = mkSlotJob i) ∧
  cfg.st.shared.slots.length = N ∧
  (∀ i, i < N →
    mkSlotJob i ∈ cfg.pending ∨ mkSlotJob i ∈ cfg.st.queue ∨
    mkSlotJob i ∈ phJobs .popped cfg.st ∨
    getSlot cfg.st.shared.slots i = (i : Int))

theorem SlotInv_init (N : Nat) : SlotInv N (cfgSlots N) := by
  refine ⟨?_, ?_, ?_, ?_⟩
  · intro j hj
    obtain ⟨i, hi, rfl⟩ := List.mem_map.mp hj
    exact ⟨i, List.mem_range.mp hi, rfl⟩
  · intro j hj
    rw [show (cfgSlots N).st = initStateWith 8 (slotsShared N) from rfl,
      liveJobs_init] at hj
    simp at hj
  · simp [cfgSlots, initStateWith, slotsShared, initShared]
  · intro i hi
    exact Or.inl (List.mem_map.mpr ⟨i, List.mem_range.mpr hi, rfl⟩)

theorem SlotInv_doAct (N : Nat) {cfg : Config} (h : SlotInv N cfg)
    (a : Act) : SlotInv N (doAct cfg a) := by
  obtain ⟨hpend, hlive, hlen, hslot⟩ := h
  cases a with
  | dispatch =>
    cases hp : cfg.pending with
    | nil =>
      have : doAct cfg .dispatch = cfg := by simp [doAct, hp]
      rw [this]; exact ⟨hpend, hlive, hlen, hslot⟩
    | cons j rest =>
      have hst : (doAct cfg .dispatch).st = submitJob j cfg.st := by
        simp [doAct, hp]
      have hpd : (doAct cfg .dispatch).pending = rest := by
        simp [doAct, hp]
      refine ⟨?_, ?_, ?_, ?_⟩
      · intro x hx
        rw [hpd] at hx
        exact hpend x (by rw [hp]; exact List.mem_cons_of_mem _ hx)
      · intro x hx
        rw [hst] at hx
        rcases List.mem_cons.mp
          ((liveJobs_submit_perm j cfg.st).mem_iff.mp hx) with rfl | hx'
        · exact hpend x (by rw [hp]; exact List.mem_cons_self _ _)
        · exact hlive x hx'
      · rw [hst]
        exact hlen
      · intro i hi
        rcases hslot i hi with hc | hc | hc | hc
        · rw [hp] at hc
          rcases List.mem_cons.mp hc with he | hm
          · right; left
            rw [hst]
            show mkSlotJob i ∈ cfg.st.queue ++ [j]
            rw [← he]
            exact List.mem_append_right _ (List.mem_singleton.mpr rfl)
          · left
            rw [hpd]; exact hm
        · right; left
          rw [hst]
          exact List.mem_append_left _ hc
        · right; right; left
          rw [hst]
          exact hc
        · right; right; right
          rw [hst]
          exact hc
  | work w =>
    have hpd : (doAct cfg (.work w)).pending = cfg.pending := rfl
    have hst : (doAct cfg (.work w)).st = stepWorker cfg.st w := rfl
    rw [show doAct cfg (.work w) =
      ⟨stepWorker cfg.st w, cfg.pending⟩ from rfl]
    rcases step_cases cfg.st w with heq | ⟨j, q', hw, hfl, hp, heq⟩ |
      ⟨j, hw, hfl, heq⟩ | ⟨j, hw, hfl, heq⟩ | ⟨j, hw, hfl, heq⟩
    · rw [heq]; exact ⟨hpend, hlive, hlen, hslot⟩
    · -- pop
      have hq : (stepWorker cfg.st w).queue = q' := by rw [heq]
      have hsh : (stepWorker cfg.st w).shared = cfg.st.shared := by rw [heq]
      have hwm := wmap_update_perm (stepWorker cfg.st w) hw (some ⟨j, .popped⟩) (phSel .popped)
        (by rw [heq]) (by rw [heq])
      rw [hfl] at hwm
      have e1 : ((none : Option InFlight).bind (phSel .popped)).toList =
          ([] : List Job) := rfl
      have e2 : ((some (InFlight.mk j .popped) : Option InFlight).bind
          (phSel .popped)).toList = [j] := rfl
      rw [e1, e2, List.append_nil] at hwm
      have hmemj : j ∈ phJobs .popped (stepWorker cfg.st w) := by
        have hwc2 : (stepWorker cfg.st w).wcount = cfg.st.wcount := by
          rw [heq]
        have hfl2 : (stepWorker cfg.st w).workers w =
            some ⟨j, .popped⟩ := by
          rw [show (stepWorker cfg.st w).workers =
            Function.update cfg.st.workers w (some ⟨j, .popped⟩) from
            by rw [heq], Function.update_same]
        exact mem_wmap_of_worker (by rw [hwc2]; exact hw) hfl2
          (g := phSel .popped) rfl
      refine ⟨hpend, ?_, by rw [hsh]; exact hlen, ?_⟩
      · intro x hx
        exact hlive x (liveJobs_step_sub hx)
      · intro i hi
        rcases hslot i hi with hc | hc | hc | hc
        · exact Or.inl hc
        · rcases List.mem_cons.mp ((popBest_perm hp).mem_iff.mp hc) with
            he | hm
          · right; right; left
            rw [he]
            exact hmemj
          · right; left
            rw [hq]; exact hm
        · right; right; left
          exact hwm.symm.mem_iff.mp (List.mem_append_left _ hc)
        · right; right; right
          rw [hsh]; exact hc
    · -- body
      have hq : (stepWorker cfg.st w).queue = cfg.st.queue := by rw [heq]
      have hsh : (stepWorker cfg.st w).shared =
          applyEntry j.entry j.arg j.receiver cfg.st.shared := by rw [heq]
      have hwm := wmap_update_perm (stepWorker cfg.st w) hw (some ⟨j, .bodyDone⟩) (phSel .popped)
        (by rw [heq]) (by rw [heq])
      rw [hfl] at hwm
      have e1 : ((some (InFlight.mk j .popped) : Option InFlight).bind
          (phSel .popped)).toList = [j] := rfl
      have e2 : ((some (InFlight.mk j .bodyDone) : Option InFlight).bind
          (phSel .popped)).toList = ([] : List Job) := rfl
      rw [e1, e2, List.append_nil] at hwm
      -- the stepped job is a scenario job
      have hjmem : j ∈ liveJobs cfg.st :=
        List.mem_append_right _ (mem_wmap_of_worker hw hfl (g := jobOf) rfl)
      obtain ⟨i₀, hi₀, hj₀⟩ := hlive j hjmem
      have hargs : j.arg = Val.intV (i₀ : Int) := by rw [hj₀]; rfl
      have hentry : j.entry = Entry.slotWrite := by rw [hj₀]; rfl
      have hsh' : (stepWorker cfg.st w).shared.slots =
          setSlot cfg.st.shared.slots i₀ (i₀ : Int) := by
        rw [hsh, hentry, hargs]
        rfl
      refine ⟨hpend, ?_, ?_, ?_⟩
      · intro x hx
        exact hlive x (liveJobs_step_sub hx)
      · rw [hsh', setSlot_length]
        exact hlen
      · intro i hi
        rcases hslot i hi with hc | hc | hc | hc
        · exact Or.inl hc
        · right; left
          rw [hq]; exact hc
        · have : mkSlotJob i ∈ phJobs .popped (stepWorker cfg.st w) ++ [j] :=
            hwm.symm.mem_iff.mp hc
          rcases List.mem_append.mp this with hm | hm
          · right; right; left
            exact hm
          · -- the job that just ran is job i itself
            have he : mkSlotJob i = j := List.mem_singleton.mp hm
            have hii : i = i₀ := by
              have : (mkSlotJob i).id = (mkSlotJob i₀).id := by
                rw [he, hj₀]
              simpa [mkSlotJob] using this
            right; right; right
            rw [hsh', hii]
            exact getSlot_setSlot_self _ _ _ (by rw [hlen]; exact hi₀)
        · right; right; right
          rw [hsh']
          by_cases hii : i₀ = i
          · rw [← hii] at hc ⊢
            exact getSlot_setSlot_self _ _ _ (by rw [hlen]; exact hi₀)
          · rw [getSlot_setSlot_ne _ _ _ _ hii]
            exact hc
    · -- destroy
      have hq : (stepWorker cfg.st w).queue = cfg.st.queue := by rw [heq]
      have hsh : (stepWorker cfg.st w).shared = cfg.st.shared := by rw [heq]
      have hwm := wmap_update_perm (stepWorker cfg.st w) hw (some ⟨j, .destroyed⟩)
        (phSel .popped) (by rw [heq]) (by rw [heq])
      rw [hfl] at hwm
      have e1 : ((some (InFlight.mk j .bodyDone) : Option InFlight).bind
          (phSel .popped)).toList = ([] : List Job) := rfl
      have e2 : ((some (InFlight.mk j .destroyed) : Option InFlight).bind
          (phSel .popped)).toList = ([] : List Job) := rfl
      rw [e1, e2, List.append_nil, List.append_nil] at hwm
      refine ⟨hpend, ?_, by rw [hsh]; exact hlen, ?_⟩
      · intro x hx
        exact hlive x (liveJobs_step_sub hx)
      · intro i hi
        rcases hslot i hi with hc | hc | hc | hc
        · exact Or.inl hc
        · right; left
          rw [hq]; exact hc
        · right; right; left
          exact hwm.symm.mem_iff.mp hc
        · right; right; right
          rw [hsh]; exact hc
    · -- complete
      have hq : (stepWorker cfg.st w).queue = cfg.st.queue := by rw [heq]
      have hsh : (stepWorker cfg.st w).shared = cfg.st.shared := by rw [heq]
      have hwm := wmap_update_perm (stepWorker cfg.st w) hw none (phSel .popped)
        (by rw [heq]) (by rw [heq])
      rw [hfl] at hwm
      have e1 : ((some (InFlight.mk j .destroyed) : Option InFlight).bind
          (phSel .popped)).toList = ([] : List Job) := rfl
      have e2 : ((none : Option InFlight).bind (phSel .popped)).toList =
          ([] : List Job) := rfl
      rw [e1, e2, List.append_nil, List.append_nil] at hwm
      refine ⟨hpend, ?_, by rw [hsh]; exact hlen, ?_⟩
      · intro x hx
        exact hlive x (liveJobs_step_sub hx)
      · intro i hi
        rcases hslot i hi with hc | hc | hc | hc
        · exact Or.inl hc
        · right; left
          rw [hq]; exact hc
        · right; right; left
          exact hwm.symm.mem_iff.mp hc
        · right; right; right
          rw [hsh]; exact hc

/-- C3.  Batch completion: for the `MemberFunctionJobMultiple` scenario —
`N` jobs, each writing its distinct index `i` into private slot `i` of a
preallocated array, all registered against one CompletionSignal and
submitted to the 8-worker pool — along any interleaving in which the
client has submitted everything (as it has when it calls `wait()`) and
`wait()` has returned (pending count zero), every one of the `N` entry
points has executed and every slot `i` holds `i`.  Instantiating `N := 100`
gives the spec's concrete scenario. -/
theorem C3_batch_completion (N : Nat) (σ : List Act)
    (hpend : (runAct (cfgSlots N) σ).pending = [])
    (hz : (runAct (cfgSlots N) σ).st.signals 0 = 0) :
    (∀ i, i < N →
      Event.evBody i (Val.intV i) ∈ (runAct (cfgSlots N) σ).st.trace) ∧
    (∀ i, i < N →
      getSlot (runAct (cfgSlots N) σ).st.shared.slots i = (i : Int)) := by
  have hSinit : SigInv (cfgSlots N).st := SigInv_init 8 (slotsShared N)
  have hbodies := batch_bodies ((List.range N).map mkSlotJob)
    (cfgSlots N) σ (BodyEvInv_init 8 (slotsShared N))
    (fun j hj => Or.inl hj) hSinit 0
    (fun j hj => by
      obtain ⟨i, hi, rfl⟩ := List.mem_map.mp hj
      rfl) hpend hz
  have hI : SlotInv N (runAct (cfgSlots N) σ) :=
    runAct_preserve (SlotInv N)
      (fun c w hc => SlotInv_doAct N hc (.work w))
      (fun c hc => SlotInv_doAct N hc .dispatch) σ _ (SlotInv_init N)
  have hS' : SigInv (runAct (cfgSlots N) σ).st := SigInv_doAct_run hSinit σ
  have hlive_nil : liveJobs (runAct (cfgSlots N) σ).st = [] := by
    refine List.eq_nil_iff_forall_not_mem.mpr (fun x hx => ?_)
    obtain ⟨i, hi, rfl⟩ := hI.2.1 x hx
    exact (no_live_of_zero hS' hz _ hx) rfl
  constructor
  · intro i hi
    exact hbodies (mkSlotJob i) (List.mem_map.mpr ⟨i, List.mem_range.mpr hi, rfl⟩)
  · intro i hi
    rcases hI.2.2.2 i hi with hc | hc | hc | hc
    · rw [hpend] at hc; simp at hc
    · rw [(workerJobs_nil_of_live_nil hlive_nil).1] at hc; simp at hc
    · rw [phJobs_nil_of_live_nil hlive_nil .popped] at hc; simp at hc
    · exact hc

/-! ## Shared-counter scenario (LambdaJobOld) -/

/-- One of the `LambdaJobOld` closure jobs: increments the shared atomic
counter, registered to signal 0. -/
def incJob (i : Nat) : Job :=
  { id := i, prio := .eRegularPriority, sigId := some 0, arg := .unitV,
    receiver := none, entry := .incCounter }

/-- The `LambdaJobOld` configuration: an 8-worker pool and `N` increment
jobs to submit. -/
def cfgCounter (N : Nat) : Config :=
  ⟨initStateWith 8 initShared, (List.range N).map incJob⟩

theorem applyEntry_inc (v : Val) (r : Option Nat) (sh : Shared) :
    applyEntry .incCounter v r sh = { sh with counter := sh.counter + 1 } := by
  cases v <;> cases r <;> rfl

/-- Invariant of the counter scenario: only increment jobs circulate, and
the counter plus the number of jobs that have not yet run their body is
constant. -/
def CntInv (N : Nat) (cfg : Config) : Prop :=
  (∀ j ∈ cfg.pending, j.entry = .incCounter ∧ j.sigId = some 0) ∧
  (∀ j ∈ liveJobs cfg.st, j.entry = .incCounter ∧ j.sigId = some 0) ∧
  cfg.st.shared.counter + cfg.pending.length + cfg.st.queue.length +
    (phJobs .popped cfg.st).length = N

theorem CntInv_init (N : Nat) : CntInv N (cfgCounter N) := by
  refine ⟨?_, ?_, ?_⟩
  · intro j hj
    obtain ⟨i, hi, rfl⟩ := List.mem_map.mp hj
    exact ⟨rfl, rfl⟩
  · intro j hj
    rw [show (cfgCounter N).st = initStateWith 8 initShared from rfl,
      liveJobs_init] at hj
    simp at hj
  · have hph : phJobs .popped (cfgCounter N).st = [] :=
      phJobs_nil_of_live_nil (liveJobs_init 8 initShared) .popped
    rw [hph]
    show 0 + ((List.range N).map incJob).length + 0 + 0 = N
    simp

theorem CntInv_doAct (N : Nat) {cfg : Config} (h : CntInv N cfg)
    (a : Act) : CntInv N (doAct cfg a) := by
  obtain ⟨hpend, hlive, hcnt⟩ := h
  cases a with
  | dispatch =>
    cases hp : cfg.pending with
    | nil =>
      have : doAct cfg .dispatch = cfg := by simp [doAct, hp]
      rw [this]; exact ⟨hpend, hlive, hcnt⟩
    | cons j rest =>
      have hst : (doAct cfg .dispatch).st = submitJob j cfg.st := by
        simp [doAct, hp]
      have hpd : (doAct cfg .dispatch).pending = rest := by
        simp [doAct, hp]
      refine ⟨?_, ?_, ?_⟩
      · intro x hx
        rw [hpd] at hx
        exact hpend x (by rw [hp]; exact List.mem_cons_of_mem _ hx)
      · intro x hx
        rw [hst] at hx
        rcases List.mem_cons.mp
          ((liveJobs_submit_perm j cfg.st).mem_iff.mp hx) with rfl | hx'
        · exact hpend x (by rw [hp]; exact List.mem_cons_self _ _)
        · exact hlive x hx'
      · have h1 : (doAct cfg Act.dispatch).st.shared.counter =
            cfg.st.shared.counter := by rw [hst]; rfl
        have h2 : (doAct cfg Act.dispatch).pending.length + 1 =
            cfg.pending.length := by rw [hpd, hp]; rfl
        have h3 : (doAct cfg Act.dispatch).st.queue.length =
            cfg.st.queue.length + 1 := by
          rw [hst]
          show (cfg.st.queue ++ [j]).length = _
          simp
        have h4 : (phJobs .popped (doAct cfg Act.dispatch).st).length =
            (phJobs .popped cfg.st).length := by rw [hst]; rfl
        omega
  | work w =>
    rcases step_cases cfg.st w with heq | ⟨j, q', hw, hfl, hp, heq⟩ |
      ⟨j, hw, hfl, heq⟩ | ⟨j, hw, hfl, heq⟩ | ⟨j, hw, hfl, heq⟩
    all_goals
      have hst : (doAct cfg (Act.work w)).st = stepWorker cfg.st w := rfl
    all_goals
      have hpd : (doAct cfg (Act.work w)).pending = cfg.pending := rfl
    · refine ⟨hpend, ?_, ?_⟩
      · intro x hx
        rw [hst, heq] at hx
        exact hlive x hx
      · rw [hst, hpd, heq]
        exact hcnt
    · -- pop
      have hq : (stepWorker cfg.st w).queue = q' := by rw [heq]
      have hsh : (stepWorker cfg.st w).shared = cfg.st.shared := by rw [heq]
      have hwm := wmap_update_perm (stepWorker cfg.st w) hw (some ⟨j, .popped⟩) (phSel .popped)
        (by rw [heq]) (by rw [heq])
      rw [hfl] at hwm
      have e1 : ((none : Option InFlight).bind (phSel .popped)).toList =
          ([] : List Job) := rfl
      have e2 : ((some (InFlight.mk j .popped) : Option InFlight).bind
          (phSel .popped)).toList = [j] := rfl
      rw [e1, e2, List.append_nil] at hwm
      have hlen := hwm.length_eq
      have hqlen := (popBest_perm hp).length_eq
      simp only [List.length_append, List.length_cons,
        List.length_nil] at hlen hqlen
      have hlive' : ∀ x ∈ liveJobs (doAct cfg (Act.work w)).st,
          x.entry = Entry.incCounter ∧ x.sigId = some 0 := by
        intro x hx
        rw [hst] at hx
        exact hlive x (liveJobs_step_sub hx)
      refine ⟨hpend, hlive', ?_⟩
      have h1 : (doAct cfg (Act.work w)).st.shared.counter =
          cfg.st.shared.counter := by rw [hst, hsh]
      have h2 : (doAct cfg (Act.work w)).st.queue.length + 1 =
          cfg.st.queue.length := by rw [hst, hq]; omega
      have h3 : (phJobs .popped (doAct cfg (Act.work w)).st).length =
          (phJobs .popped cfg.st).length + 1 := by
        rw [hst]
        show (wmap (stepWorker cfg.st w) (phSel .popped)).length =
          (wmap cfg.st (phSel .popped)).length + 1
        omega
      rw [hpd]
      omega
    · -- body
      have hq : (stepWorker cfg.st w).queue = cfg.st.queue := by rw [heq]
      have hjmem : j ∈ liveJobs cfg.st :=
        List.mem_append_right _ (mem_wmap_of_worker hw hfl (g := jobOf) rfl)
      obtain ⟨hentry, -⟩ := hlive j hjmem
      have hsh : (stepWorker cfg.st w).shared.counter =
          cfg.st.shared.counter + 1 := by
        have hx : (stepWorker cfg.st w).shared =
            applyEntry j.entry j.arg j.receiver cfg.st.shared := by rw [heq]
        rw [hx, hentry, applyEntry_inc]
      have hwm := wmap_update_perm (stepWorker cfg.st w) hw (some ⟨j, .bodyDone⟩) (phSel .popped)
        (by rw [heq]) (by rw [heq])
      rw [hfl] at hwm
      have e1 : ((some (InFlight.mk j .popped) : Option InFlight).bind
          (phSel .popped)).toList = [j] := rfl
      have e2 : ((some (InFlight.mk j .bodyDone) : Option InFlight).bind
          (phSel .popped)).toList = ([] : List Job) := rfl
      rw [e1, e2, List.append_nil] at hwm
      have hlen := hwm.length_eq
      simp only [List.length_append, List.length_cons,
        List.length_nil] at hlen
      have hlive' : ∀ x ∈ liveJobs (doAct cfg (Act.work w)).st,
          x.entry = Entry.incCounter ∧ x.sigId = some 0 := by
        intro x hx
        rw [hst] at hx
        exact hlive x (liveJobs_step_sub hx)
      refine ⟨hpend, hlive', ?_⟩
      have h1 : (doAct cfg (Act.work w)).st.shared.counter =
          cfg.st.shared.counter + 1 := by rw [hst, hsh]
      have h2 : (doAct cfg (Act.work w)).st.queue.length =
          cfg.st.queue.length := by rw [hst, hq]
      have h3 : (phJobs .popped (doAct cfg (Act.work w)).st).length + 1 =
          (phJobs .popped cfg.st).length := by
        rw [hst]
        show (wmap (stepWorker cfg.st w) (phSel .popped)).length + 1 =
          (wmap cfg.st (phSel .popped)).length
        omega
      rw [hpd]
      omega
    · -- destroy
      have hq : (stepWorker cfg.st w).queue = cfg.st.queue := by rw [heq]
      have hsh : (stepWorker cfg.st w).shared = cfg.st.shared := by rw [heq]
      have hwm := wmap_update_perm (stepWorker cfg.st w) hw (some ⟨j, .destroyed⟩)
        (phSel .popped) (by rw [heq]) (by rw [heq])
      rw [hfl] at hwm
      have e1 : ((some (InFlight.mk j .bodyDone) : Option InFlight).bind
          (phSel .popped)).toList = ([] : List Job) := rfl
      have e2 : ((some (InFlight.mk j .destroyed) : Option InFlight).bind
          (phSel .popped)).toList = ([] : List Job) := rfl
      rw [e1, e2, List.append_nil, List.append_nil] at hwm
      have hlen := hwm.length_eq
      have hlive' : ∀ x ∈ liveJobs (doAct cfg (Act.work w)).st,
          x.entry = Entry.incCounter ∧ x.sigId = some 0 := by
        intro x hx
        rw [hst] at hx
        exact hlive x (liveJobs_step_sub hx)
      refine ⟨hpend, hlive', ?_⟩
      have h1 : (doAct cfg (Act.work w)).st.shared.counter =
          cfg.st.shared.counter := by rw [hst, hsh]
      have h2 : (doAct cfg (Act.work w)).st.queue.length =
          cfg.st.queue.length := by rw [hst, hq]
      have h3 : (phJobs .popped (doAct cfg (Act.work w)).st).length =
          (phJobs .popped cfg.st).length := by
        rw [hst]
        show (wmap (stepWorker cfg.st w) (phSel .popped)).length =
          (wmap cfg.st (phSel .popped)).length
        omega
      rw [hpd]
      omega
    · -- complete
      have hq : (stepWorker cfg.st w).queue = cfg.st.queue := by rw [heq]
      have hsh : (stepWorker cfg.st w).shared = cfg.st.shared := by rw [heq]
      have hwm := wmap_update_perm (stepWorker cfg.st w) hw none (phSel .popped)
        (by rw [heq]) (by rw [heq])
      rw [hfl] at hwm
      have e1 : ((some (InFlight.mk j .destroyed) : Option InFlight).bind
          (phSel .popped)).toList = ([] : List Job) := rfl
      have e2 : ((none : Option InFlight).bind (phSel .popped)).toList =
          ([] : List Job) := rfl
      rw [e1, e2, List.append_nil, List.append_nil] at hwm
      have hlen := hwm.length_eq
      have hlive' : ∀ x ∈ liveJobs (doAct cfg (Act.work w)).st,
          x.entry = Entry.incCounter ∧ x.sigId = some 0 := by
        intro x hx
        rw [hst] at hx
        exact hlive x (liveJobs_step_sub hx)
      refine ⟨hpend, hlive', ?_⟩
      have h1 : (doAct cfg (Act.work w)).st.shared.counter =
          cfg.st.shared.counter := by rw [hst, hsh]
      have h2 : (doAct cfg (Act.work w)).st.queue.length =
          cfg.st.queue.length := by rw [hst, hq]
      have h3 : (phJobs .popped (doAct cfg (Act.work w)).st).length =
          (phJobs .popped cfg.st).length := by
        rw [hst]
        show (wmap (stepWorker cfg.st w) (phSel .popped)).length =
          (wmap cfg.st (phSel .popped)).length
        omega
      rw [hpd]
      omega

/-- C6.  Concurrent increment safety: for `N` closure jobs submitted to the
8-worker pool, each incrementing the one shared atomic counter (an
increment is a single atomic step) and all registered to one
CompletionSignal, after every interleaving in which all jobs were
submitted and `wait()` has returned, the counter equals exactly `N` —
no increment is lost.  `N := 100` gives the spec's scenario. -/
theorem C6_concurrent_increments (N : Nat) (σ : List Act)
    (hpend : (runAct (cfgCounter N) σ).pending = [])
    (hz : (runAct (cfgCounter N) σ).st.signals 0 = 0) :
    (runAct (cfgCounter N) σ).st.shared.counter = N := by
  have hI : CntInv N (runAct (cfgCounter N) σ) :=
    runAct_preserve (CntInv N)
      (fun c w hc => CntInv_doAct N hc (.work w))
      (fun c hc => CntInv_doAct N hc .dispatch) σ _ (CntInv_init N)
  have hS' : SigInv (runAct (cfgCounter N) σ).st :=
    SigInv_doAct_run (SigInv_init 8 initShared) σ
  have hlive_nil : liveJobs (runAct (cfgCounter N) σ).st = [] := by
    refine List.eq_nil_iff_forall_not_mem.mpr (fun x hx => ?_)
    exact (no_live_of_zero hS' hz _ hx) (hI.2.1 x hx).2
  have hc := hI.2.2
  rw [hpend, (workerJobs_nil_of_live_nil hlive_nil).1,
    phJobs_nil_of_live_nil hlive_nil .popped] at hc
  simpa using hc

/-! ## Idempotent wait -/

/-- Worker steps never make new jobs attached to a signal appear: the
count of live jobs satisfying any predicate never increases. -/
theorem liveJobs_countP_step_le (st : SysState) (w : Nat) (p : Job → Bool) :
    (liveJobs (stepWorker st w)).countP p ≤ (liveJobs st).countP p := by
  rcases step_cases st w with heq | ⟨j, q', hw, hfl, hp, heq⟩ |
    ⟨j, hw, hfl, heq⟩ | ⟨j, hw, hfl, heq⟩ | ⟨j, hw, hfl, heq⟩
  · rw [heq]
  · have hq : (stepWorker st w).queue = q' := by rw [heq]
    have hc1 := wmap_step_countP hw hfl (stepWorker st w)
      (by rw [heq]) (by rw [heq]) jobOf p
    have e1 : (((none : Option InFlight).bind jobOf).toList : List Job) =
        [] := rfl
    have e2 : ((some (InFlight.mk j .popped) : Option InFlight).bind
        jobOf).toList = [j] := rfl
    rw [e1, e2] at hc1
    have hc2 := (popBest_perm hp).countP_eq p
    rw [show j :: q' = [j] ++ q' from rfl, List.countP_append] at hc2
    have e3 : liveJobs (stepWorker st w) =
        q' ++ wmap (stepWorker st w) jobOf := by
      show (stepWorker st w).queue ++ wmap (stepWorker st w) jobOf = _
      rw [hq]
    have e4 : liveJobs st = st.queue ++ wmap st jobOf := rfl
    rw [e3, e4, List.countP_append, List.countP_append]
    simp only [List.countP_nil] at hc1
    omega
  · have hq : (stepWorker st w).queue = st.queue := by rw [heq]
    have hc1 := wmap_step_countP hw hfl (stepWorker st w)
      (by rw [heq]) (by rw [heq]) jobOf p
    have e1 : ((some (InFlight.mk j .popped) : Option InFlight).bind
        jobOf).toList = [j] := rfl
    have e2 : ((some (InFlight.mk j .bodyDone) : Option InFlight).bind
        jobOf).toList = [j] := rfl
    rw [e1, e2] at hc1
    have e3 : liveJobs (stepWorker st w) =
        st.queue ++ wmap (stepWorker st w) jobOf := by
      show (stepWorker st w).queue ++ wmap (stepWorker st w) jobOf = _
      rw [hq]
    have e4 : liveJobs st = st.queue ++ wmap st jobOf := rfl
    rw [e3, e4, List.countP_append, List.countP_append]
    omega
  · have hq : (stepWorker st w).queue = st.queue := by rw [heq]
    have hc1 := wmap_step_countP hw hfl (stepWorker st w)
      (by rw [heq]) (by rw [heq]) jobOf p
    have e1 : ((some (InFlight.mk j .bodyDone) : Option InFlight).bind
        jobOf).toList = [j] := rfl
    have e2 : ((some (InFlight.mk j .destroyed) : Option InFlight).bind
        jobOf).toList = [j] := rfl
    rw [e1, e2] at hc1
    have e3 : liveJobs (stepWorker st w) =
        st.queue ++ wmap (stepWorker st w) jobOf := by
      show (stepWorker st w).queue ++ wmap (stepWorker st w) jobOf = _
      rw [hq]
    have e4 : liveJobs st = st.queue ++ wmap st jobOf := rfl
    rw [e3, e4, List.countP_append, List.countP_append]
    omega
  · have hq : (stepWorker st w).queue = st.queue := by rw [heq]
    have hc1 := wmap_step_countP hw hfl (stepWorker st w)
      (by rw [heq]) (by rw [heq]) jobOf p
    have e1 : ((some (InFlight.mk j .destroyed) : Option InFlight).bind
        jobOf).toList = [j] := rfl
    have e2 : (((none : Option InFlight).bind jobOf).toList : List Job) =
        [] := rfl
    rw [e1, e2] at hc1
    have e3 : liveJobs (stepWorker st w) =
        st.queue ++ wmap (stepWorker st w) jobOf := by
      show (stepWorker st w).queue ++ wmap (stepWorker st w) jobOf = _
      rw [hq]
    have e4 : liveJobs st = st.queue ++ wmap st jobOf := rfl
    rw [e3, e4, List.countP_append, List.countP_append]
    simp only [List.countP_nil] at hc1
    omega

theorem liveJobs_countP_run_le (st : SysState) (σ : List Nat)
    (p : Job → Bool) :
    (liveJobs (run st σ)).countP p ≤ (liveJobs st).countP p := by
  induction σ generalizing st with
  | nil => exact Nat.le_refl _
  | cons w σ ih =>
    rw [run_cons]
    exact Nat.le_trans (ih (stepWorker st w)) (liveJobs_countP_step_le st w p)

theorem waitSpin_of_zero (s : Nat) (step : SysState → Nat → SysState)
    (st : SysState) (h : st.signals s = 0) :
    ∀ σw, waitSpin s step st σw = 0 := by
  intro σw
  cases σw with
  | nil => rfl
  | cons w σ => simp [waitSpin, h]

/-- C7.  Idempotent wait: once a CompletionSignal's pending count has
reached zero (so that its ledger shows no live attached jobs), `wait()`
returns immediately — the spin performs zero iterations and the blocking
test is false — and this remains true after any further worker
activity, so repeated calls by the same thread and concurrent calls from
multiple threads all return immediately. -/
theorem C7_idempotent_wait (st : SysState) (s : Nat) (hS : SigInv st)
    (hz : st.signals s = 0) :
    waitBlocks st s = false ∧
    (∀ σw, waitSpin s stepWorker st σw = 0) ∧
    ∀ σ, waitBlocks (run st σ) s = false ∧
      (∀ σw, waitSpin s stepWorker (run st σ) σw = 0) := by
  have hzero : ∀ σ, (run st σ).signals s = 0 := by
    intro σ
    have hS' : SigInv (run st σ) := SigInv_run hS σ
    have h1 : ((liveJobs st).countP (attachedTo s) : Int) = 0 := by
      rw [← hS s]; exact hz
    have hcount : (liveJobs st).countP (attachedTo s) = 0 := by
      exact_mod_cast h1
    have hle := liveJobs_countP_run_le st σ (attachedTo s)
    have hc' : (liveJobs (run st σ)).countP (attachedTo s) = 0 := by omega
    rw [hS' s, hc']
    rfl
  refine ⟨by simp [waitBlocks, hz], waitSpin_of_zero s stepWorker st hz, ?_⟩
  intro σ
  exact ⟨by simp [waitBlocks, hzero σ],
    waitSpin_of_zero s stepWorker (run st σ) (hzero σ)⟩

/-- Witness for C7 at a concrete signal and pool. -/
theorem C7_witness :
    waitBlocks (initStateWith 8 initShared) 0 = false ∧
    waitSpin 0 stepWorker (initStateWith 8 initShared) [0, 1, 2] = 0 ∧
    waitBlocks (run (initStateWith 8 initShared) [0, 0, 0]) 0 = false ∧
    waitSpin 0 stepWorker (run (initStateWith 8 initShared) [0, 0]) [3, 4]
      = 0 := by
  have h := C7_idempotent_wait (initStateWith 8 initShared) 0
    (SigInv_init 8 initShared) rfl
  exact ⟨h.1, h.2.1 _, (h.2.2 [0, 0, 0]).1, (h.2.2 [0, 0]).2 [3, 4]⟩

/-! ## Signal reusability -/

theorem dispatches_signals : ∀ (batch : List Job) (st : SysState) (s : Nat),
    (∀ j ∈ batch, j.sigId = some s) →
    (runAct ⟨st, batch⟩ (List.replicate batch.length Act.dispatch)).st.signals
      s = st.signals s + batch.length := by
  intro batch
  induction batch with
  | nil =>
    intro st s h
    simp [runAct, List.replicate]
  | cons j rest ih =>
    intro st s h
    have hstep : runAct ⟨st, j :: rest⟩
        (List.replicate (j :: rest).length Act.dispatch) =
        runAct ⟨submitJob j st, rest⟩
          (List.replicate rest.length Act.dispatch) := rfl
    rw [hstep, ih (submitJob j st) s
      (fun x hx => h x (List.mem_cons_of_mem _ hx))]
    have hreg : (submitJob j st).signals s = st.signals s + 1 := by
      show register j.sigId st.signals s = _
      unfold register
      rw [if_pos (h j (List.mem_cons_self _ _))]
    rw [hreg]
    simp only [List.length_cons]
    push_cast
    ring

/-- C10.  CompletionSignal reusability: a signal whose pending count has
returned to zero (its first batch done, `wait()` returned without
blocking) can be registered against a new batch of jobs: submitting the
whole batch raises the count to the batch size exactly as on a fresh
signal, and waiting again returns only after the new batch completes —
any interleaving that drives the count back to zero with everything
submitted has run every new job's body. -/
theorem C10_signal_reusability (st : SysState) (s : Nat) (batch : List Job)
    (hS : SigInv st) (hB : BodyEvInv st) (hz : st.signals s = 0)
    (hatt : ∀ j ∈ batch, j.sigId = some s) :
    waitBlocks st s = false ∧
    (runAct ⟨st, batch⟩ (List.replicate batch.length Act.dispatch)).st.signals
      s = (batch.length : Int) ∧
    ∀ σ, (runAct ⟨st, batch⟩ σ).pending = [] →
      (runAct ⟨st, batch⟩ σ).st.signals s = 0 →
      ∀ j ∈ batch,
        Event.evBody j.id j.arg ∈ (runAct ⟨st, batch⟩ σ).st.trace := by
  refine ⟨by simp [waitBlocks, hz], ?_, ?_⟩
  · rw [dispatches_signals batch st s hatt, hz]
    simp
  · intro σ hpend hz'
    exact batch_bodies batch ⟨st, batch⟩ σ hB (fun j hj => Or.inl hj) hS s hatt hpend hz'

/-- Witness for C10: reuse a quiescent signal for a fresh one-job batch. -/
theorem C10_witness :
    waitBlocks (initStateWith 8 initShared) 0 = false ∧
    (runAct ⟨initStateWith 8 initShared, [incJob 5]⟩
      (List.replicate 1 Act.dispatch)).st.signals 0 = (1 : Int) ∧
    Event.evBody 5 Val.unitV ∈
      (runAct ⟨initStateWith 8 initShared, [incJob 5]⟩
        [Act.dispatch, Act.work 0, Act.work 0, Act.work 0,
         Act.work 0]).st.trace := by
  have h := C10_signal_reusability (initStateWith 8 initShared) 0 [incJob 5]
    (SigInv_init 8 initShared) (BodyEvInv_init 8 initShared) rfl
    (by intro j hj
        rcases List.mem_singleton.mp hj with rfl
        rfl)
  refine ⟨h.1, ?_, ?_⟩
  · exact h.2.1
  · exact h.2.2 [Act.dispatch, Act.work 0, Act.work 0, Act.work 0, Act.work 0]
      (by rfl) (by decide) (incJob 5) (List.mem_singleton.mpr rfl)

/-- A concrete completing schedule for a six-job batch: the client
submits all six jobs, then worker 0 drains them. -/
def sched6 : List Act :=
  List.replicate 6 Act.dispatch ++ List.replicate 24 (Act.work 0)

/-- Witness for C3 on a concrete six-job batch and schedule. -/
theorem C3_witness :
    Event.evBody 4 (Val.intV 4) ∈ (runAct (cfgSlots 6) sched6).st.trace ∧
    getSlot (runAct (cfgSlots 6) sched6).st.shared.slots 4 = (4 : Int) := by
  have h := C3_batch_completion 6 sched6 (by decide) (by decide)
  exact ⟨h.1 4 (by omega), h.2 4 (by omega)⟩

/-- Witness for C6 on a concrete six-job batch and schedule. -/
theorem C6_witness :
    (runAct (cfgCounter 6) sched6).st.shared.counter = 6 :=
  C6_concurrent_increments 6 sched6 (by decide) (by decide)

/-! ## Single-job run_now ordering (LambdaJobNew) -/

/-- Recognise the run events (body, destroy, complete) of a job id. -/
def isRunEventOf (jid : Nat) : Event → Bool
  | .evBody j _ => decide (j = jid)
  | .evDestroy j => decide (j = jid)
  | .evComplete j => decide (j = jid)
  | _ => false

/-- The run events of a job id, in trace order. -/
def jobEvents (jid : Nat) (tr : List Event) : List Event :=
  tr.filter (isRunEventOf jid)

/-- The state right after submitting a single job to a fresh `W`-worker
pool. -/
def stJ (j : Job) (W : Nat) : SysState :=
  submitJob j (initStateWith W initShared)

/-- Phase description of the single-job scenario: the job is queued, held
by exactly one worker in one of the three run_now phases, or finished;
the trace, shared memory and pending count are pinned in each phase. -/
def C2Inv (j : Job) (W : Nat) (st : SysState) : Prop :=
  st.wcount = W ∧
  ((st.queue = [j] ∧ (∀ u, st.workers u = none) ∧
     jobEvents j.id st.trace = [] ∧ st.shared = initShared ∧
     st.signals 0 = 1) ∨
   (∃ w₀, w₀ < W ∧ st.workers w₀ = some ⟨j, .popped⟩ ∧
     (∀ u, u ≠ w₀ → st.workers u = none) ∧ st.queue = [] ∧
     jobEvents j.id st.trace = [] ∧ st.shared = initShared ∧
     st.signals 0 = 1) ∨
   (∃ w₀, w₀ < W ∧ st.workers w₀ = some ⟨j, .bodyDone⟩ ∧
     (∀ u, u ≠ w₀ → st.workers u = none) ∧ st.queue = [] ∧
     jobEvents j.id st.trace = [Event.evBody j.id j.arg] ∧
     st.shared = applyEntry j.entry j.arg j.receiver initShared ∧
     st.signals 0 = 1) ∨
   (∃ w₀, w₀ < W ∧ st.workers w₀ = some ⟨j, .destroyed⟩ ∧
     (∀ u, u ≠ w₀ → st.workers u = none) ∧ st.queue = [] ∧
     jobEvents j.id st.trace =
       [Event.evBody j.id j.arg, Event.evDestroy j.id] ∧
     st.shared = applyEntry j.entry j.arg j.receiver initShared ∧
     st.signals 0 = 1) ∨
   ((∀ u, st.workers u = none) ∧ st.queue = [] ∧
     jobEvents j.id st.trace =
       [Event.evBody j.id j.arg, Event.evDestroy j.id,
        Event.evComplete j.id] ∧
     st.shared = applyEntry j.entry j.arg j.receiver initShared ∧
     st.signals 0 = 0))

theorem C2Inv_init (j : Job) (W : Nat) (h0 : j.sigId = some 0) :
    C2Inv j W (stJ j W) := by
  refine ⟨rfl, Or.inl ⟨rfl, fun u => rfl, ?_, rfl, ?_⟩⟩
  · have htr : (stJ j W).trace = regEvents j.sigId ++ [Event.evPush j.id] :=
      rfl
    rw [htr, h0]
    rfl
  · show register j.sigId zeroSig 0 = 1
    unfold register
    rw [h0, if_pos rfl]
    rfl

theorem C2Inv_step (j : Job) (W : Nat) (h0 : j.sigId = some 0)
    {st : SysState} (hI : C2Inv j W st) (w' : Nat) :
    C2Inv j W (stepWorker st w') := by
  obtain ⟨hwc, hcase⟩ := hI
  have hwc' : (stepWorker st w').wcount = W := by
    rw [stepWorker_wcount]; exact hwc
  rcases step_cases st w' with heq | ⟨j', q', hw, hfl, hp, heq⟩ |
    ⟨j', hw, hfl, heq⟩ | ⟨j', hw, hfl, heq⟩ | ⟨j', hw, hfl, heq⟩
  · rw [heq]; exact ⟨hwc, hcase⟩
  · -- pop step: only possible in the queued phase
    rcases hcase with ⟨hq, hwk, htr, hsh, hsg⟩ | ⟨w₀, hw₀, hold, hoth, hq, _⟩ |
      ⟨w₀, hw₀, hold, hoth, hq, _⟩ | ⟨w₀, hw₀, hold, hoth, hq, _⟩ |
      ⟨hwk, hq, _⟩
    · rw [hq] at hp
      have hp' : some (j, ([] : List Job)) = some (j', q') := hp
      injection hp' with hpair
      injection hpair with hj hq'
      subst hj; subst hq'
      refine ⟨hwc', Or.inr (Or.inl ⟨w', ?_, ?_, ?_, ?_, ?_, ?_, ?_⟩)⟩
      · rw [hwc] at hw; exact hw
      · rw [show (stepWorker st w').workers =
          Function.update st.workers w' (some ⟨j, .popped⟩) from by rw [heq],
          Function.update_same]
      · intro u hu
        rw [show (stepWorker st w').workers =
          Function.update st.workers w' (some ⟨j, .popped⟩) from by rw [heq],
          Function.update_noteq hu]
        exact hwk u
      · rw [show (stepWorker st w').queue = [] from by rw [heq]]
      · rw [show (stepWorker st w').trace = st.trace from by rw [heq]]
        exact htr
      · rw [show (stepWorker st w').shared = st.shared from by rw [heq]]
        exact hsh
      · rw [show (stepWorker st w').signals = st.signals from by rw [heq]]
        exact hsg
    · rw [hq] at hp; simp [popBest] at hp
    · rw [hq] at hp; simp [popBest] at hp
    · rw [hq] at hp; simp [popBest] at hp
    · rw [hq] at hp; simp [popBest] at hp
  · -- body step: only possible while holding the popped job
    rcases hcase with ⟨hq, hwk, htr, hsh, hsg⟩ |
      ⟨w₀, hw₀, hold, hoth, hq, htr, hsh, hsg⟩ |
      ⟨w₀, hw₀, hold, hoth, hq, htr, hsh, hsg⟩ |
      ⟨w₀, hw₀, hold, hoth, hq, htr, hsh, hsg⟩ |
      ⟨hwk, hq, htr, hsh, hsg⟩
    · rw [hwk w'] at hfl; simp at hfl
    · by_cases hww : w' = w₀
      · subst hww
        rw [hold] at hfl
        injection hfl with hpair
        injection hpair with hj hph
        subst hj
        refine ⟨hwc', Or.inr (Or.inr (Or.inl
          ⟨w', hw₀, ?_, ?_, ?_, ?_, ?_, ?_⟩))⟩
        · rw [show (stepWorker st w').workers =
            Function.update st.workers w' (some ⟨j, .bodyDone⟩) from
            by rw [heq], Function.update_same]
        · intro u hu
          rw [show (stepWorker st w').workers =
            Function.update st.workers w' (some ⟨j, .bodyDone⟩) from
            by rw [heq], Function.update_noteq hu]
          exact hoth u hu
        · rw [show (stepWorker st w').queue = st.queue from by rw [heq]]
          exact hq
        · rw [show (stepWorker st w').trace =
            st.trace ++ [Event.evBody j.id j.arg] from by rw [heq]]
          unfold jobEvents at htr ⊢
          rw [List.filter_append, htr]
          simp [isRunEventOf]
        · rw [show (stepWorker st w').shared =
            applyEntry j.entry j.arg j.receiver st.shared from by rw [heq],
            hsh]
        · rw [show (stepWorker st w').signals = st.signals from by rw [heq]]
          exact hsg
      · rw [hoth w' hww] at hfl; simp at hfl
    · by_cases hww : w' = w₀
      · subst hww
        rw [hold] at hfl
        injection hfl with hpair
        injection hpair with hj hph
        cases hph
      · rw [hoth w' hww] at hfl; simp at hfl
    · by_cases hww : w' = w₀
      · subst hww
        rw [hold] at hfl
        injection hfl with hpair
        injection hpair with hj hph
        cases hph
      · rw [hoth w' hww] at hfl; simp at hfl
    · rw [hwk w'] at hfl; simp at hfl
  · -- destroy step: only possible after the body has run
    rcases hcase with ⟨hq, hwk, htr, hsh, hsg⟩ |
      ⟨w₀, hw₀, hold, hoth, hq, htr, hsh, hsg⟩ |
      ⟨w₀, hw₀, hold, hoth, hq, htr, hsh, hsg⟩ |
      ⟨w₀, hw₀, hold, hoth, hq, htr, hsh, hsg⟩ |
      ⟨hwk, hq, htr, hsh, hsg⟩
    · rw [hwk w'] at hfl; simp at hfl
    · by_cases hww : w' = w₀
      · subst hww
        rw [hold] at hfl
        injection hfl with hpair
        injection hpair with hj hph
        cases hph
      · rw [hoth w' hww] at hfl; simp at hfl
    · by_cases hww : w' = w₀
      · subst hww
        rw [hold] at hfl
        injection hfl with hpair
        injection hpair with hj hph
        subst hj
        refine ⟨hwc', Or.inr (Or.inr (Or.inr (Or.inl
          ⟨w', hw₀, ?_, ?_, ?_, ?_, ?_, ?_⟩)))⟩
        · rw [show (stepWorker st w').workers =
            Function.update st.workers w' (some ⟨j, .destroyed⟩) from
            by rw [heq], Function.update_same]
        · intro u hu
          rw [show (stepWorker st w').workers =
            Function.update st.workers w' (some ⟨j, .destroyed⟩) from
            by rw [heq], Function.update_noteq hu]
          exact hoth u hu
        · rw [show (stepWorker st w').queue = st.queue from by rw [heq]]
          exact hq
        · rw [show (stepWorker st w').trace =
            st.trace ++ [Event.evDestroy j.id] from by rw [heq]]
          unfold jobEvents at htr ⊢
          rw [List.filter_append, htr]
          simp [isRunEventOf]
        · rw [show (stepWorker st w').shared = st.shared from by rw [heq]]
          exact hsh
        · rw [show (stepWorker st w').signals = st.signals from by rw [heq]]
          exact hsg
      · rw [hoth w' hww] at hfl; simp at hfl
    · by_cases hww : w' = w₀
      · subst hww
        rw [hold] at hfl
        injection hfl with hpair
        injection hpair with hj hph
        cases hph
      · rw [hoth w' hww] at hfl; simp at hfl
    · rw [hwk w'] at hfl; simp at hfl
  · -- complete step: only possible after the snapshot was destroyed
    rcases hcase with ⟨hq, hwk, htr, hsh, hsg⟩ |
      ⟨w₀, hw₀, hold, hoth, hq, htr, hsh, hsg⟩ |
      ⟨w₀, hw₀, hold, hoth, hq, htr, hsh, hsg⟩ |
      ⟨w₀, hw₀, hold, hoth, hq, htr, hsh, hsg⟩ |
      ⟨hwk, hq, htr, hsh, hsg⟩
    · rw [hwk w'] at hfl; simp at hfl
    · by_cases hww : w' = w₀
      · subst hww
        rw [hold] at hfl
        injection hfl with hpair
        injection hpair with hj hph
        cases hph
      · rw [hoth w' hww] at hfl; simp at hfl
    · by_cases hww : w' = w₀
      · subst hww
        rw [hold] at hfl
        injection hfl with hpair
        injection hpair with hj hph
        cases hph
      · rw [hoth w' hww] at hfl; simp at hfl
    · by_cases hww : w' = w₀
      · subst hww
        rw [hold] at hfl
        injection hfl with hpair
        injection hpair with hj hph
        subst hj
        refine ⟨hwc', Or.inr (Or.inr (Or.inr (Or.inr
          ⟨?_, ?_, ?_, ?_, ?_⟩)))⟩
        · intro u
          by_cases hu : u = w'
          · subst hu
            rw [show (stepWorker st u).workers =
              Function.update st.workers u none from by rw [heq],
              Function.update_same]
          · rw [show (stepWorker st w').workers =
              Function.update st.workers w' none from by rw [heq],
              Function.update_noteq hu]
            exact hoth u hu
        · rw [show (stepWorker st w').queue = st.queue from by rw [heq]]
          exact hq
        · rw [show (stepWorker st w').trace =
            st.trace ++ [Event.evComplete j.id] from by rw [heq]]
          unfold jobEvents at htr ⊢
          rw [List.filter_append, htr]
          simp [isRunEventOf]
        · rw [show (stepWorker st w').shared = st.shared from by rw [heq]]
          exact hsh
        · rw [show (stepWorker st w').signals =
            decSig j.sigId st.signals from by rw [heq]]
          unfold decSig
          rw [h0, if_pos rfl, hsg]
          rfl
      · rw [hoth w' hww] at hfl; simp at hfl
    · rw [hwk w'] at hfl; simp at hfl

/-- C2.  Execution/teardown/completion ordering: for a job with a
CompletionSignal attached, submitted to a fresh pool, no destructor has
fired when submission returns (no destroy event in the trace), and for
every worker interleaving after which `wait()` has returned (pending
count zero), the job's run events are exactly body, then snapshot
destruction, then completion — each exactly once, in that order, with
the entry point's effect applied to shared memory.  Hence a captured
object's destructor flag is unset right after submission and set by the
time `wait()` returns, never before the body runs, never twice, never
omitted. -/
theorem C2_run_now_ordering (j : Job) (W : Nat) (h0 : j.sigId = some 0) :
    jobEvents j.id (stJ j W).trace = [] ∧
    ∀ σ, (run (stJ j W) σ).signals 0 = 0 →
      jobEvents j.id (run (stJ j W) σ).trace =
        [Event.evBody j.id j.arg, Event.evDestroy j.id,
         Event.evComplete j.id] ∧
      (run (stJ j W) σ).shared =
        applyEntry j.entry j.arg j.receiver initShared := by
  constructor
  · have htr : (stJ j W).trace = regEvents j.sigId ++ [Event.evPush j.id] :=
      rfl
    rw [htr, h0]
    rfl
  · intro σ hz
    have hInv : C2Inv j W (run (stJ j W) σ) :=
      run_preserve (C2Inv j W) (fun st w h => C2Inv_step j W h0 h w) σ _
        (C2Inv_init j W h0)
    rcases hInv.2 with ⟨-, -, -, -, hsg⟩ | ⟨w₀, -, -, -, -, -, -, hsg⟩ |
      ⟨w₀, -, -, -, -, -, -, hsg⟩ | ⟨w₀, -, -, -, -, -, -, hsg⟩ |
      ⟨-, -, htr, hsh, -⟩
    · rw [hz] at hsg; cases hsg
    · rw [hz] at hsg; cases hsg
    · rw [hz] at hsg; cases hsg
    · rw [hz] at hsg; cases hsg
    · exact ⟨htr, hsh⟩

/-- The `LambdaJobNew` closure job: sets `v := 20`, registered to
signal 0. -/
def job20 : Job :=
  { id := 0, prio := .eRegularPriority, sigId := some 0, arg := .unitV,
    receiver := none, entry := .setVar 20 }

/-- Witness for C2 on the `LambdaJobNew` job and a concrete schedule. -/
theorem C2_witness :
    jobEvents 0 (stJ job20 8).trace = [] ∧
    jobEvents 0 (run (stJ job20 8) [0, 0, 0, 0]).trace =
      [Event.evBody 0 Val.unitV, Event.evDestroy 0, Event.evComplete 0] ∧
    (run (stJ job20 8) [0, 0, 0, 0]).shared.var = 20 := by
  have h := C2_run_now_ordering job20 8 rfl
  have h2 := h.2 [0, 0, 0, 0] (by decide)
  refine ⟨h.1, h2.1, ?_⟩
  rw [h2.2]
  rfl

/-! ## Tier-FIFO dispatch (SetPriorityLevel / same-tier submission order) -/

/-- A same-tier job with no observable effect, used for dispatch-order
scenarios. -/
def fifoJob (i : Nat) : Job :=
  { id := i, prio := .eRegularPriority, sigId := none, arg := .unitV,
    receiver := none, entry := .nop }

/-- Jobs A, B, C (ids 1, 2, 3) submitted in order at the same tier to an
otherwise idle pool with one worker. -/
def st8 : SysState :=
  submitJob (fifoJob 3) (submitJob (fifoJob 2)
    (submitJob (fifoJob 1) (initStateWith 1 initShared)))

/-- The deterministic `k`-step execution of the one-worker pool. -/
def linState (k : Nat) : SysState := run st8 (List.replicate k 0)

/-- The job ids whose bodies have executed, in execution order. -/
def bodyIds (tr : List Event) : List Nat :=
  tr.filterMap (fun e => match e with
    | .evBody j _ => some j
    | _ => none)

theorem linState_succ (k : Nat) :
    linState (k + 1) = stepWorker (linState k) 0 := by
  unfold linState run
  rw [List.replicate_succ', List.foldl_append]
  rfl

theorem linState_wcount (k : Nat) : (linState k).wcount = 1 := by
  unfold linState
  rw [run_wcount]
  rfl

theorem linState12_fixed : stepWorker (linState 12) 0 = linState 12 := rfl

theorem C8Inv_step {st : SysState} (h : ∃ k, k ≤ 12 ∧ st = linState k)
    (w : Nat) : ∃ k, k ≤ 12 ∧ stepWorker st w = linState k := by
  obtain ⟨k, hk, rfl⟩ := h
  by_cases hw : w = 0
  · subst hw
    by_cases hk12 : k = 12
    · subst hk12
      exact ⟨12, Nat.le_refl _, linState12_fixed⟩
    · exact ⟨k + 1, by omega, (linState_succ k).symm⟩
  · have hoob : ¬ w < (linState k).wcount := by
      rw [linState_wcount]; omega
    exact ⟨k, hk, stepWorker_oob hoob⟩

/-- C8.  Priority and tier-FIFO dispatch order: the PriorityDispatchQueue
dequeues (general part) the earliest job of the strictly highest priority
tier present — the queue decomposes around the popped job with all
earlier jobs of strictly lower rank and no queued job of higher rank —
and (scenario part) jobs A, B, C (ids 1, 2, 3) submitted in that order at
the same tier to an otherwise idle 1-worker pool execute in order A, B,
C: under every schedule the executed bodies form a prefix of [1, 2, 3],
and the full 12-step schedule executes exactly [1, 2, 3]. -/
theorem C8_priority_fifo :
    (∀ (q : List Job) (j : Job) (q' : List Job), popBest q = some (j, q') →
      ∃ pre post, q = pre ++ j :: post ∧ q' = pre ++ post ∧
        (∀ k ∈ pre, k.prio.rank < j.prio.rank) ∧
        (∀ k ∈ q, k.prio.rank ≤ j.prio.rank)) ∧
    (∀ σ, bodyIds ((run st8 σ).trace) =
      List.take (bodyIds ((run st8 σ).trace)).length [1, 2, 3]) ∧
    bodyIds ((run st8 (List.replicate 12 0)).trace) = [1, 2, 3] := by
  refine ⟨fun q j q' h => popBest_spec h, ?_, by decide⟩
  intro σ
  have hP : ∃ k, k ≤ 12 ∧ run st8 σ = linState k :=
    run_preserve (fun st => ∃ k, k ≤ 12 ∧ st = linState k)
      (fun st w h => C8Inv_step h w) σ st8 ⟨0, by omega, rfl⟩
  obtain ⟨k, hk, heq⟩ := hP
  rw [heq]
  interval_cases k <;> decide

/-- A same-tier regular job and a strictly higher-tier job, for the
dispatch-order witness. -/
def jobLow : Job :=
  { id := 10, prio := .eRegularPriority, sigId := none, arg := .unitV,
    receiver := none, entry := .nop }

/-- See `jobLow`. -/
def jobHigh : Job :=
  { id := 11, prio := .eHighPriority, sigId := none, arg := .unitV,
    receiver := none, entry := .nop }

/-- Witness for C8: the higher-tier job is dequeued past an earlier
lower-tier one, and a concrete 5-step schedule's execution order is a
prefix of [1, 2, 3]. -/
theorem C8_witness :
    (∃ pre post, [jobLow, jobHigh] = pre ++ jobHigh :: post ∧
      [jobLow] = pre ++ post ∧
      (∀ k ∈ pre, k.prio.rank < jobHigh.prio.rank) ∧
      (∀ k ∈ [jobLow, jobHigh], k.prio.rank ≤ jobHigh.prio.rank)) ∧
    bodyIds ((run st8 (List.replicate 5 0)).trace) =
      List.take (bodyIds ((run st8 (List.replicate 5 0)).trace)).length
        [1, 2, 3] := by
  have h := C8_priority_fifo
  exact ⟨h.1 [jobLow, jobHigh] jobHigh [jobLow] (by decide), h.2.1 _⟩

/-! ## Argument durability and handle moves -/

/-- Submit a handle, leaving the state unchanged when the handle is empty
(moved-from). -/
def submitHandleD (h : JobHandle) (jid : Nat) (st : SysState) : SysState :=
  (submitHandle h jid st).getD st

/-- The caller's storage in `FreeFunctionJobLifeTime`: the local
`string str = "abc"` at address 0. -/
def memAbc : Nat → Option Val :=
  fun a => if a = 0 then some (.strV "abc") else none

/-- The handle the scenario builds from the caller's local before the
local dies: `new SFreeFunctionLifeTimeTestJob(str)` with a job state
registered. -/
def hAbc : JobHandle :=
  registerSignal ((mkHandleAt .storeGStr memAbc 0).getD
    (mkHandle .nop .unitV)) 0

/-- The machine state after submitting `hAbc` and running it to
completion on one worker.  The run takes no caller memory at all: by
construction the snapshot owns the only copy of the argument. -/
def stAbc : SysState :=
  run (submitHandleD hAbc 5 (initStateWith 1 initShared)) [0, 0, 0, 0]

/-- C1.  Argument durability: building a handle from a by-value argument
stored in caller memory deep-copies the value into the handle's
ArgumentSnapshot (general part), so the snapshot owns the value and holds
no reference into caller memory; in the `FreeFunctionJobLifeTime` replay,
the caller's storage is destroyed after creation (`destroyAt memAbc 0`
maps address 0 to nothing) and running the job nevertheless passes the
reference-typed entry-point parameter the snapshot's owned copy "abc" —
the body event records exactly that value, the global result string
becomes "abc", and the job completes. -/
theorem C1_argument_durability (mem : Nat → Option Val) (addr : Nat)
    (v : Val) (e : Entry) (hmem : mem addr = some v) :
    (∀ h, mkHandleAt e mem addr = some h → h.snapshot = some v) ∧
    destroyAt memAbc 0 0 = none ∧
    hAbc.snapshot = some (Val.strV "abc") ∧
    stAbc.shared.gstr = "abc" ∧
    Event.evBody 5 (Val.strV "abc") ∈ stAbc.trace ∧
    stAbc.signals 0 = 0 := by
  refine ⟨?_, rfl, rfl, by decide, by decide, by decide⟩
  intro h hh
  unfold mkHandleAt at hh
  rw [hmem] at hh
  have : mkHandle e v = h := Option.some.inj hh
  rw [← this]
  rfl

/-- Witness for C1 at the concrete caller memory of the scenario. -/
theorem C1_witness :
    ((mkHandleAt .storeGStr memAbc 0).getD
      (mkHandle .nop .unitV)).snapshot = some (Val.strV "abc") ∧
    stAbc.shared.gstr = "abc" := by
  have h := C1_argument_durability memAbc 0 (Val.strV "abc") .storeGStr rfl
  refine ⟨?_, h.2.2.2.1⟩
  exact h.1 (mkHandle .storeGStr (Val.strV "abc")) rfl

/-- The `MoveConstructor` handle: `TTestJob job(42)` with
`SetClassInstance(&host)` (host id 0) and
`SetPriorityLevel(eStreamPriority)`. -/
def hMove : JobHandle :=
  bindReceiver (setPriority (mkHandle .memberSet (.intV 42))
    .eStreamPriority) 0

/-- C5.  Move transfer: moving a not-yet-submitted JobHandle transfers
its ArgumentSnapshot, priority and CompletionSignal attachment to the
destination and leaves the source empty and non-submittable (submitting
it is refused); submitting only the moved-to handle of the
`MoveConstructor` scenario runs the job to completion with the
originally captured argument 42. -/
theorem C5_move_transfer :
    (∀ h : JobHandle,
      (moveHandle h).1.snapshot = h.snapshot ∧
      (moveHandle h).1.prio = h.prio ∧
      (moveHandle h).1.sig = h.sig ∧
      (moveHandle h).2.snapshot = none ∧
      submittable (moveHandle h).2 = false ∧
      (∀ jid st, submitHandle (moveHandle h).2 jid st = none)) ∧
    (run (submitHandleD (moveHandle hMove).1 0 (initStateWith 1 initShared))
      [0, 0, 0, 0]).shared.hosts 0 = 42 ∧
    Event.evBody 0 (Val.intV 42) ∈
      (run (submitHandleD (moveHandle hMove).1 0
        (initStateWith 1 initShared)) [0, 0, 0, 0]).trace ∧
    Event.evComplete 0 ∈
      (run (submitHandleD (moveHandle hMove).1 0
        (initStateWith 1 initShared)) [0, 0, 0, 0]).trace := by
  refine ⟨?_, by decide, by decide, by decide⟩
  intro h
  exact ⟨rfl, rfl, rfl, rfl, rfl, fun jid st => rfl⟩

/-- The `MoveConstructor` handle bound to the distinguishable receiver 7
before the move. -/
def hRecv : JobHandle :=
  bindReceiver (setPriority (mkHandle .memberSet (.intV 42))
    .eStreamPriority) 7

/-- C9.  Move transfers the receiver binding: moving a not-yet-submitted
member-function JobHandle carries over the receiver set via
`SetClassInstance` (general part), so running the moved-to handle without
rebinding invokes the entry point on the originally bound receiver: in
the scenario bound to receiver 7, after the run, host 7 holds 42. -/
theorem C9_move_receiver :
    (∀ h : JobHandle, (moveHandle h).1.receiver = h.receiver) ∧
    (moveHandle hRecv).1.receiver = some 7 ∧
    (run (submitHandleD (moveHandle hRecv).1 3 (initStateWith 1 initShared))
      [0, 0, 0, 0]).shared.hosts 7 = 42 := by
  exact ⟨fun h => rfl, rfl, by decide⟩

end JobSys
